import Mathlib

set_option maxRecDepth 100000

/-!
Shallow embedding, on `List Char`, of the SQL formatting tool of this
repository (`sql_format_tool/scripts/sql_format_pass_1.py`, and
`reindent_sql` from `sql_format_tool/sql_format_pass_1.py`), together
with proofs about the specification's claims.

Python strings are modelled as `List Char`.  Every regular-expression
rewrite of the source is modelled by an explicit scan that follows the
semantics of CPython `re` for the concrete pattern at hand: leftmost
match, alternation tried in pattern order at each position, greedy and
lazy repetition and the exact lookaround positions, as noted at each
definition.  All inputs handled by this development are ASCII, so the
ASCII-only `Char.toUpper`/`Char.toLower` agree with Python `str.upper`
and `re.IGNORECASE`.
-/

namespace SqlFmt

/-- Python whitespace as in regex `\s` and `str.strip` (ASCII). -/
def isPySpace (c : Char) : Bool :=
  c = ' ' || c = '\t' || c = '\n' || c = '\r' || c = '\x0b' || c = '\x0c'

/-- Python regex word character class `[A-Za-z0-9_]`. -/
def isWordChar (c : Char) : Bool :=
  ('a' ≤ c && c ≤ 'z') || ('A' ≤ c && c ≤ 'Z') || ('0' ≤ c && c ≤ '9') || c = '_'

/-- ASCII decimal digit `[0-9]`. -/
def isAsciiDigit (c : Char) : Bool := '0' ≤ c && c ≤ '9'

/-- First character of a regex identifier `[a-zA-Z_]`. -/
def isIdentStart (c : Char) : Bool :=
  ('a' ≤ c && c ≤ 'z') || ('A' ≤ c && c ≤ 'Z') || c = '_'

/-- A word-or-dot character (those a dotted identifier is made of). -/
def isWordDot (c : Char) : Bool := isWordChar c || c = '.'

/-- Python `str.upper` on one character (ASCII inputs only). -/
def upChar (c : Char) : Char := c.toUpper

/-- Python `str.upper` (ASCII inputs only). -/
def upStr (s : List Char) : List Char := s.map upChar

/-- Python `str.lower` (ASCII inputs only). -/
def lowStr (s : List Char) : List Char := s.map Char.toLower

/-- Character comparison under `re.IGNORECASE` (ASCII). -/
def charCI (a b : Char) : Bool := a.toLower = b.toLower

/-- Shorthand turning a Lean string literal into the `List Char` model. -/
def str (s : String) : List Char := s.toList

/-- Is the head of the list a word character? -/
def headIsWord : List Char → Bool
  | c :: _ => isWordChar c
  | [] => false

/-- Is the optional character a word character? -/
def optIsWord : Option Char → Bool
  | some c => isWordChar c
  | none => false

/-- Python `str.lstrip()`. -/
def pyLStrip (s : List Char) : List Char := s.dropWhile isPySpace

/-- Python `str.rstrip()`. -/
def pyRStrip (s : List Char) : List Char := (s.reverse.dropWhile isPySpace).reverse

/-- Python `str.strip()`. -/
def pyStrip (s : List Char) : List Char := pyRStrip (pyLStrip s)

/-- Python `s.count(c)` for a single character. -/
def countChar (c : Char) (s : List Char) : Nat := (s.filter (· = c)).length

/-- Split on newline characters, keeping every piece (`"a\n" ↦ ["a", ""]`). -/
def splitNL : List Char → List (List Char)
  | [] => [[]]
  | c :: r =>
    if c = '\n' then [] :: splitNL r
    else
      match splitNL r with
      | [] => [[c]]
      | l :: ls => (c :: l) :: ls

/-- Python `str.splitlines()` for texts whose only line break is `'\n'`
(the only break character produced or consumed by this tool):
like `splitNL` but `""` gives `[]` and a trailing newline adds no empty
final line. -/
def pySplitlines (s : List Char) : List (List Char) :=
  if s.isEmpty then []
  else
    let ls := splitNL s
    if ls.getLast? = some [] then ls.dropLast else ls

/-- Python `"\n".join(lines)`. -/
def joinNL : List (List Char) → List Char
  | [] => []
  | [l] => l
  | l :: ls => l ++ '\n' :: joinNL ls

/-- The scan of Python `str.replace(pat, rep)`: replace every occurrence,
scanning left to right without overlap.  Structurally recursive on a
fuel argument so that it evaluates in the kernel; one unit of fuel is
spent per character position, so the wrapper's `s.length + 1` never runs
out (a replaced occurrence is nonempty in every use below; the empty
pattern, which Python treats specially, is never exercised and falls to
the character branch). -/
def replaceSubF (pat rep : List Char) : Nat → List Char → List Char
  | 0, s => s
  | fuel + 1, s =>
    if pat ≠ [] ∧ pat.isPrefixOf s then rep ++ replaceSubF pat rep fuel (s.drop pat.length)
    else
      match s with
      | [] => []
      | c :: r => c :: replaceSubF pat rep fuel r

/-- Python `str.replace(pat, rep)` (empty `pat` returns `s` unchanged;
never exercised). -/
def replaceSub (pat rep : List Char) (s : List Char) : List Char :=
  replaceSubF pat rep (s.length + 1) s

/-- Does `pat` occur as a contiguous substring of `s`? -/
def hasSub (pat : List Char) : List Char → Bool
  | [] => pat.isEmpty
  | c :: r => pat.isPrefixOf (c :: r) || hasSub pat r

/-- Decimal digits of a natural number, most significant first
(fuelled; `n + 1` units always suffice since the argument drops to
`n / 10` each step). -/
def natDigitsF : Nat → Nat → List Char
  | 0, _ => []
  | fuel + 1, n =>
    if n < 10 then [Char.ofNat (48 + n)]
    else natDigitsF fuel (n / 10) ++ [Char.ofNat (48 + n % 10)]

/-- Decimal digits of a natural number, most significant first. -/
def natDigits (n : Nat) : List Char := natDigitsF (n + 1) n

/-- Python `"{n:04d}"`: decimal digits left padded with zeros to width 4. -/
def pad4 (n : Nat) : List Char :=
  let d := natDigits n
  List.replicate (4 - d.length) '0' ++ d

/-! ## Span Protector (`extract_placeholders` / `restore_placeholders`)

`extract_placeholders` runs one `re.sub` with the alternation

  `(--[^\n]*)|(/\*.*?\*/)|({{.*?}})|({%-?.*?-%})|({#.*?#})|('(?:''|[^'])*')|("(?:[^"]|"")*")`

under `re.DOTALL`; the callback replaces each match with the key
`__PLACEHOLDER_<label>_<counter:04d>__` and records the original text.
The scan below models this: at each position the seven alternatives are
tried in this order; on a match the matched text is consumed, otherwise
one character is copied and the scan moves on. -/

/-- Split `s` at the first occurrence of `delim`: returns the part up to
and including `delim`, and the rest.  Models the lazy `.*?` followed by
the literal `delim` under `re.DOTALL`. -/
def findDelim (delim : List Char) : List Char → Option (List Char × List Char)
  | [] => if delim = [] then some ([], []) else none
  | c :: r =>
    if delim.isPrefixOf (c :: r) then some (delim, (c :: r).drop delim.length)
    else (findDelim delim r).map fun p => (c :: p.1, p.2)

/-- Scanner for the body of `'(?:''|[^'])*'` (and the `"` variant, which
matches the same strings): after the opening quote, consume doubled
quotes and non-quote characters greedily; a lone quote closes.  If the
input ends unclosed, regex backtracking reopens the last doubled quote
and closes at its first character; if there is none the whole
alternative fails.  Returns (consumed body including closing quote,
rest). -/
def scanQuote (q : Char) : Nat → List Char → Option (List Char × List Char)
  | _, [] => none
  | _, [c] => if c = q then some ([q], []) else none
  | 0, _ :: _ :: _ => none
  | fuel + 1, c1 :: c2 :: r =>
    if c1 = q then
      if c2 = q then
        match scanQuote q fuel r with
        | some (t, rest) => some (q :: q :: t, rest)
        | none => some ([q], c2 :: r)
      else some ([q], c2 :: r)
    else (scanQuote q fuel (c2 :: r)).map fun p => (c1 :: p.1, p.2)

/-- Try the seven placeholder patterns, in the priority order of the
source's `PLACEHOLDER_PATTERNS`, at the current position.  Returns
(label, matched text, rest). -/
def matchProt : List Char → Option (List Char × List Char × List Char)
  | '-' :: '-' :: r =>
    -- r"--[^\n]*"
    some (str "SQL_COMMENT", '-' :: '-' :: r.takeWhile (· ≠ '\n'), r.dropWhile (· ≠ '\n'))
  | '/' :: '*' :: r =>
    -- r"/\*.*?\*/"
    (findDelim (str "*/") r).map fun p => (str "SQL_BLOCK_COMMENT", '/' :: '*' :: p.1, p.2)
  | '{' :: '{' :: r =>
    -- r"{{.*?}}"
    (findDelim (str "\x7d\x7d") r).map fun p => (str "JINJA", '{' :: '{' :: p.1, p.2)
  | '{' :: '%' :: r =>
    -- r"{%-?.*?-%}": the greedy `-?` is tried with the dash first and
    -- backtracks to the empty alternative only if no "-%}" follows.
    (match r with
     | '-' :: r2 =>
       match findDelim (str "-%\x7d") r2 with
       | some p => some (str "JINJA", '{' :: '%' :: '-' :: p.1, p.2)
       | none =>
         if (str "%\x7d").isPrefixOf r2 then
           some (str "JINJA", str "\x7b%-%\x7d", r2.drop 2)
         else none
     | _ => (findDelim (str "-%\x7d") r).map fun p => (str "JINJA", '{' :: '%' :: p.1, p.2))
  | '{' :: '#' :: r =>
    -- r"{#.*?#}"
    (findDelim (str "#\x7d") r).map fun p => (str "JINJA_COMMENT", '{' :: '#' :: p.1, p.2)
  | '\'' :: r =>
    -- r"'(?:''|[^'])*'"
    (scanQuote '\'' (r.length + 1) r).map fun p => (str "SINGLE_QUOTED_STRING", '\'' :: p.1, p.2)
  | '"' :: r =>
    -- r'"(?:[^"]|"")*"'
    (scanQuote '"' (r.length + 1) r).map fun p => (str "DOUBLE_QUOTED_STRING", '"' :: p.1, p.2)
  | _ => none

/-- One protected or raw piece of the input text. -/
inductive Chunk where
  | raw : Char → Chunk
  | prot : List Char → List Char → Chunk
deriving Repr, DecidableEq

/-- The protection scan: split the text into raw characters and protected
spans, leftmost match first.  Fuelled (one unit per position; a match
always consumes at least one character, so `s.length + 1` suffices); on
exhaustion the rest is emitted as raw characters. -/
def chunksOfF : Nat → List Char → List Chunk
  | 0, s => s.map Chunk.raw
  | _ + 1, [] => []
  | fuel + 1, c :: r =>
    match matchProt (c :: r) with
    | some p => Chunk.prot p.1 p.2.1 :: chunksOfF fuel p.2.2
    | none => Chunk.raw c :: chunksOfF fuel r

def chunksOf (s : List Char) : List Chunk := chunksOfF (s.length + 1) s

/-- Placeholder key `__PLACEHOLDER_<label>_<n:04d>__`. -/
def mkKey (lbl : List Char) (n : Nat) : List Char :=
  str "__PLACEHOLDER_" ++ lbl ++ '_' :: pad4 n ++ str "__"

/-- The protected text: keys are numbered left to right from `n`. -/
def renderChunks : List Chunk → Nat → List Char
  | [], _ => []
  | Chunk.raw c :: r, n => c :: renderChunks r n
  | Chunk.prot lbl _ :: r, n => mkKey lbl n ++ renderChunks r (n + 1)

/-- The replacement table, in insertion (= text) order. -/
def tableChunks : List Chunk → Nat → List (List Char × List Char)
  | [], _ => []
  | Chunk.raw _ :: r, n => tableChunks r n
  | Chunk.prot lbl m :: r, n => (mkKey lbl n, m) :: tableChunks r (n + 1)

/-- The original text a chunk list came from. -/
def origChunks : List Chunk → List Char
  | [] => []
  | Chunk.raw c :: r => c :: origChunks r
  | Chunk.prot _ m :: r => m ++ origChunks r

/-- `extract_placeholders` from
`sql_format_tool/scripts/sql_format_pass_1.py`: returns the protected
text and the placeholder table (counter starts at 1). -/
def extract_placeholders (sql : List Char) : List Char × List (List Char × List Char) :=
  (renderChunks (chunksOf sql) 1, tableChunks (chunksOf sql) 1)

/-- `restore_placeholders` from the same file: for each table entry in
insertion order, `sql = sql.replace(key, original)`. -/
def restore_placeholders (sql : List Char) (repl : List (List Char × List Char)) : List Char :=
  repl.foldl (fun acc kv => replaceSub kv.1 kv.2 acc) sql


/-- The six labels `PLACEHOLDER_PATTERNS` uses. -/
def LABELS : List (List Char) :=
  [str "SQL_COMMENT", str "SQL_BLOCK_COMMENT", str "JINJA", str "JINJA_COMMENT",
   str "SINGLE_QUOTED_STRING", str "DOUBLE_QUOTED_STRING"]

/-- Number of protected chunks in a chunk list. -/
def protCount : List Chunk → Nat
  | [] => 0
  | Chunk.raw _ :: r => protCount r
  | Chunk.prot _ _ :: r => protCount r + 1

/-- Every protected chunk's label is one of the pattern labels. -/
def chunksWF (cs : List Chunk) : Prop :=
  ∀ l m, Chunk.prot l m ∈ cs → l ∈ LABELS

/-- The numeric value of a digit string (most significant first). -/
def digitsVal (ds : List Char) : Nat :=
  ds.foldl (fun acc c => 10 * acc + (c.toNat - 48)) 0

/-! ## Configured keyword and function-name sets (verbatim from the source) -/

/-- `SNOWFLAKE_FUNCTIONS` from `scripts/sql_format_pass_1.py`. -/
def SNOWFLAKE_FUNCTIONS : List (List Char) :=
  [str "ARRAY_AGG", str "AVG", str "CAST", str "COALESCE", str "COUNT", str "DATEADD",
   str "DATEDIFF", str "FIRST_VALUE", str "LAST_VALUE", str "LISTAGG", str "MAX", str "MIN",
   str "ROW_NUMBER", str "SUM", str "TO_DATE", str "TO_TIMESTAMP", str "NVL", str "IFF",
   str "CASE", str "DECODE", str "LEAD", str "LAG", str "RANK", str "DENSE_RANK", str "NTILE",
   str "ABS", str "CEIL", str "CEILING", str "FLOOR", str "ROUND", str "TRUNC", str "EXP",
   str "LN", str "LOG", str "LOG10", str "MOD", str "POWER", str "SQRT", str "SIGN", str "SIN",
   str "COS", str "TAN", str "ASIN", str "ACOS", str "ATAN", str "ATAN2", str "COSH",
   str "SINH", str "TANH", str "GREATEST", str "LEAST", str "NULLIF", str "REGEXP_REPLACE",
   str "REGEXP_SUBSTR", str "SPLIT_PART", str "SUBSTR", str "SUBSTRING", str "TRIM",
   str "LTRIM", str "RTRIM", str "UPPER", str "LOWER", str "INITCAP", str "REPLACE",
   str "REVERSE", str "CONCAT", str "CONCAT_WS", str "LPAD", str "RPAD", str "LEFT",
   str "RIGHT", str "POSITION", str "CHARINDEX", str "ASCII", str "CHR", str "TO_CHAR",
   str "TO_NUMBER", str "TO_VARCHAR", str "TO_DECIMAL", str "TO_DOUBLE", str "TO_BOOLEAN",
   str "TO_VARIANT", str "TO_OBJECT", str "TO_ARRAY", str "TRY_CAST", str "TRY_TO_DATE",
   str "TRY_TO_TIMESTAMP"]

/-- `MAJOR_CLAUSES` from `scripts/sql_format_pass_1.py`. -/
def MAJOR_CLAUSES : List (List Char) :=
  [str "SELECT", str "FROM", str "WHERE", str "GROUP BY", str "ORDER BY", str "HAVING",
   str "JOIN", str "INNER JOIN", str "LEFT JOIN", str "RIGHT JOIN", str "FULL JOIN",
   str "UNION", str "EXCEPT", str "INTERSECT", str "LIMIT", str "UPDATE"]

/-- `KEYWORDS` from `scripts/sql_format_pass_1.py`, in source order (this
order is the regex alternation priority: multi-word join forms first). -/
def KEYWORDS : List (List Char) :=
  [str "LEFT JOIN", str "RIGHT JOIN", str "INNER JOIN", str "OUTER JOIN", str "FULL JOIN",
   str "SELECT", str "FROM", str "WHERE", str "GROUP BY", str "ORDER BY", str "HAVING",
   str "JOIN", str "UNION", str "LIMIT", str "ON", str "AND", str "OR",
   str "WITH", str "WHEN", str "THEN", str "ELSE", str "END", str "OVER", str "VALUES"]

/-! ## `flatten_sql_whitespace`

Source:
```
sql = re.sub(r"\\s+", " ", sql)          # literal backslash + 's'+ !
sql = sql.replace("\n", " ").strip()
sql = re.sub(r" {2,}", " ", sql)
return sql.replace(" ", "") if remove_all_spaces else sql
```
The first pattern is `\\s+`, i.e. a literal backslash followed by one or
more letters `s` — not a whitespace class. -/

/-- Model of `re.sub(r"\\s+", " ", sql)`: each literal `\` followed by a
maximal run of `s` letters becomes one space.  (Fuelled, one unit per
position; the wrapper passes `length + 1`.) -/
def subBackslashSF : Nat → List Char → List Char
  | 0, s => s
  | _ + 1, [] => []
  | fuel + 1, c :: r =>
    if c = '\\' ∧ r.head? = some 's' then
      ' ' :: subBackslashSF fuel (r.dropWhile (· = 's'))
    else c :: subBackslashSF fuel r

def subBackslashS (s : List Char) : List Char := subBackslashSF (s.length + 1) s

/-- Model of `re.sub(r" {2,}", " ", sql)`: runs of two or more spaces
collapse to one. -/
def collapseSpacesF : Nat → List Char → List Char
  | 0, s => s
  | _ + 1, [] => []
  | fuel + 1, c :: r =>
    if c = ' ' ∧ r.head? = some ' ' then
      ' ' :: collapseSpacesF fuel (r.dropWhile (· = ' '))
    else c :: collapseSpacesF fuel r

def collapseSpaces (s : List Char) : List Char := collapseSpacesF (s.length + 1) s

/-- Model of `re.sub(r"\n{3,}", "\n\n", sql)`: runs of three or more
newlines collapse to two. -/
def collapseNLF : Nat → List Char → List Char
  | 0, s => s
  | _ + 1, [] => []
  | fuel + 1, c :: r =>
    if c = '\n' ∧ r.take 2 = ['\n', '\n'] then
      '\n' :: '\n' :: collapseNLF fuel (r.dropWhile (· = '\n'))
    else c :: collapseNLF fuel r

def collapseNL (s : List Char) : List Char := collapseNLF (s.length + 1) s

/-- `flatten_sql_whitespace` from `scripts/sql_format_pass_1.py`. -/
def flatten_sql_whitespace (sql : List Char) (removeAllSpaces : Bool) : List Char :=
  let s1 := subBackslashS sql
  let s2 := s1.map fun c => if c = '\n' then ' ' else c
  let s3 := pyStrip s2
  let s4 := collapseSpaces s3
  if removeAllSpaces then s4.filter (· ≠ ' ') else s4

/-! ## `normalize_operators`

Each regex pass is modelled by a scan with the same leftmost-match
semantics; lookbehinds read the character of the *original* string just
before the relevant position, which the scans thread through as `prev`. -/

/-- One pass of `re.sub(rf"\s*({op})\s*", " op ", sql)` (also used with
`";" ↦ "\n\n;\n\n"`).  A match starts at the first position from which
skipping whitespace lands on `op`; leading and trailing whitespace are
absorbed into the replacement. -/
def subSpacedTokF (op rep : List Char) : Nat → List Char → List Char
  | 0, s => s
  | _ + 1, [] => []
  | fuel + 1, c :: r =>
    if op ≠ [] ∧ op.isPrefixOf ((c :: r).dropWhile isPySpace) then
      rep ++ subSpacedTokF op rep fuel
        ((((c :: r).dropWhile isPySpace).drop op.length).dropWhile isPySpace)
    else c :: subSpacedTokF op rep fuel r

def subSpacedTok (op rep : List Char) (s : List Char) : List Char :=
  subSpacedTokF op rep (s.length + 1) s

/-- The alternative of `(?<![<>!])=(?![=])|(?<!<)<(?!>)|(?<!>)>(?!<)|[+/%]`
matched at the operator character `o`, with `behind` the original
character directly before `o` and `tail` the text after it. -/
def isSingleOpHere (behind : Option Char) (o : Char) (tail : List Char) : Bool :=
  (o = '=' && !(behind = some '<' || behind = some '>' || behind = some '!')
      && tail.head? ≠ some '=')
  || (o = '<' && behind ≠ some '<' && tail.head? ≠ some '>')
  || (o = '>' && behind ≠ some '>' && tail.head? ≠ some '<')
  || o = '+' || o = '/' || o = '%'

/-- The single-operator alternation applied to the whitespace-stripped
rest of the text (`false` when the text is empty). -/
def singleOpCond (behind : Option Char) : List Char → Bool
  | o :: tail => isSingleOpHere behind o tail
  | [] => false

/-- One pass of `re.sub(rf"\s*({single_ops})\s*", r" \1 ", sql)`.  `prev`
is the original character before the current position (for the
lookbehinds, which sit at the operator character, after any leading
whitespace of the match). -/
def subSingleOpsGo : Nat → Option Char → List Char → List Char
  | 0, _, s => s
  | _ + 1, _, [] => []
  | fuel + 1, prev, c :: r =>
    if singleOpCond
        (if ((c :: r).takeWhile isPySpace).isEmpty then prev
         else ((c :: r).takeWhile isPySpace).getLast?)
        ((c :: r).dropWhile isPySpace) = true then
      let rest := (c :: r).dropWhile isPySpace
      let o := rest.head!
      let tail := rest.tail
      let tws := tail.takeWhile isPySpace
      let prev2 : Option Char := if tws.isEmpty then some o else tws.getLast?
      ' ' :: o :: ' ' :: subSingleOpsGo fuel prev2 (tail.dropWhile isPySpace)
    else c :: subSingleOpsGo fuel (some c) r

/-- Model of the single-character-operator pass. -/
def subSingleOps (sql : List Char) : List Char := subSingleOpsGo (sql.length + 1) none sql

/-- One pass of `re.sub(r"(?<!\.)\s*\*\s*", r" * ", sql)`.  The
lookbehind `(?<!\.)` sits at the match start, i.e. before the leading
whitespace; on failure the scan retries one character further, where the
lookbehind then sees a whitespace character. -/
def subStarGo : Nat → Option Char → List Char → List Char
  | 0, _, s => s
  | _ + 1, _, [] => []
  | fuel + 1, prev, c :: r =>
    if prev ≠ some '.' ∧ ((c :: r).dropWhile isPySpace).head? = some '*' then
      let tail := ((c :: r).dropWhile isPySpace).tail
      let tws := tail.takeWhile isPySpace
      let prev2 : Option Char := if tws.isEmpty then some '*' else tws.getLast?
      ' ' :: '*' :: ' ' :: subStarGo fuel prev2 (tail.dropWhile isPySpace)
    else c :: subStarGo fuel (some c) r

def subStar (sql : List Char) : List Char := subStarGo (sql.length + 1) none sql

/-- After a `(`: does `\s*\*\s*\)` follow? -/
def starParenCond : List Char → Bool
  | '*' :: b => (List.dropWhile isPySpace b).head? == some ')'
  | _ => false

/-- `re.sub(r"\(\s*\*\s*\)", r"(*)", sql)`. -/
def subStarParen : Nat → List Char → List Char
  | 0, s => s
  | _ + 1, [] => []
  | fuel + 1, c :: r =>
    if c = '(' ∧ starParenCond (r.dropWhile isPySpace) = true then
      '(' :: '*' :: ')' ::
        subStarParen fuel (((r.dropWhile isPySpace).tail.dropWhile isPySpace).tail)
    else c :: subStarParen fuel r

/-- After a word character: does `\s*-\s*` followed by a word character
come next? -/
def minusCond : List Char → Bool
  | '-' :: tail => headIsWord (List.dropWhile isPySpace tail)
  | _ => false

/-- One pass of `re.sub(r"(?<=\w)\s*-\s*(?=\w)", r" - ", sql)`: the
lookbehind sits at the match start (before leading whitespace), the
lookahead after the trailing whitespace. -/
def subMinusGo : Nat → Option Char → List Char → List Char
  | 0, _, s => s
  | _ + 1, _, [] => []
  | fuel + 1, prev, c :: r =>
    if optIsWord prev = true ∧ minusCond ((c :: r).dropWhile isPySpace) = true then
      let tail := ((c :: r).dropWhile isPySpace).tail
      let tws := tail.takeWhile isPySpace
      let prev2 : Option Char := if tws.isEmpty then some '-' else tws.getLast?
      ' ' :: '-' :: ' ' :: subMinusGo fuel prev2 (tail.dropWhile isPySpace)
    else c :: subMinusGo fuel (some c) r

def subMinus (sql : List Char) : List Char := subMinusGo (sql.length + 1) none sql

/-- `normalize_operators` from `scripts/sql_format_pass_1.py`: the exact
sequence of substitution passes of the source. -/
def normalize_operators (sql : List Char) : List Char :=
  let s1 := subSpacedTok (str "<>") (str " <> ") sql
  let s2 := subSpacedTok (str "!=") (str " != ") s1
  let s3 := subSpacedTok (str "<=") (str " <= ") s2
  let s4 := subSpacedTok (str ">=") (str " >= ") s3
  let s5 := subSpacedTok (str "||") (str " || ") s4
  let s6 := subSingleOps s5
  let s7 := subStar s6
  let s8 := subStarParen (s7.length + 1) s7
  let s9 := subMinus s8
  let s10 := subSpacedTok (str ";") (str "\n\n;\n\n") s9
  collapseNL s10

/-! ## `format_sql_keywords` -/

/-- Case-insensitive prefix match of a keyword against the text
(`re.IGNORECASE`, ASCII). -/
def matchCIList : List Char → List Char → Bool
  | [], _ => true
  | _ :: _, [] => false
  | k :: ks, c :: cs => charCI k c && matchCIList ks cs

/-- Try the keyword alternation at the current position: `prevIsWord` is
the `(?<![A-Za-z0-9_])` boundary test on the original character before
this position; the trailing `(?![A-Za-z0-9_])` boundary is checked after
the keyword.  Alternatives are tried in `KEYWORDS` order.  Returns the
canonical (uppercase) keyword, which equals `match.group("kw").upper()`
because the list entries consist of uppercase letters and spaces. -/
def kwAt (prevIsWord : Bool) (s : List Char) : Option (List Char) :=
  if prevIsWord then none
  else KEYWORDS.findSome? fun kw =>
    if matchCIList kw s then
      match (s.drop kw.length).head? with
      | some c => if isWordChar c then none else some kw
      | none => some kw
    else none

/-- The scan of
`re.sub(pattern, insert_newline, sql, flags=re.IGNORECASE)` in
`format_sql_keywords`: a keyword occurrence keeps its place when the
original character before it is a newline, gets a blank line when it is
in `MAJOR_CLAUSES`, and a single newline otherwise.  `prev` is the
original character before the current position. -/
def fkGo : Nat → Option Char → List Char → List Char
  | 0, _, s => s
  | _ + 1, _, [] => []
  | fuel + 1, prev, c :: r =>
    match kwAt (optIsWord prev) (c :: r) with
    | some kw =>
      let rep :=
        if prev = some '\n' then kw
        else if MAJOR_CLAUSES.contains kw then '\n' :: '\n' :: kw
        else '\n' :: kw
      rep ++ fkGo fuel ((c :: r).take kw.length).getLast? ((c :: r).drop kw.length)
    | none => c :: fkGo fuel (some c) r

/-- `format_sql_keywords` from `scripts/sql_format_pass_1.py`. -/
def format_sql_keywords (sql : List Char) : List Char := fkGo (sql.length + 1) none sql

/-! ## Lexical classifier: `is_function_call` -/

/-- After the first identifier segment: accept `(\.[a-zA-Z_]\w*)*\s*` up
to the end of the string. -/
def identTailOkF : Nat → List Char → Bool
  | 0, _ => false
  | fuel + 1, s =>
    match s with
    | '.' :: c :: r =>
      if isIdentStart c then identTailOkF fuel ((c :: r).dropWhile isWordChar)
      else false
    | s => s.all isPySpace

def identTailOk (s : List Char) : Bool := identTailOkF (s.length + 1) s

/-- Match `([a-zA-Z_]\w*(\.[a-zA-Z_]\w*)*)\s*$` against the whole string,
returning group 1 (the dotted identifier). -/
def parseIdentWs : List Char → Option (List Char)
  | [] => none
  | c :: r =>
    if isIdentStart c then
      if identTailOk ((c :: r).dropWhile isWordChar) then
        some ((c :: r).takeWhile isWordDot)
      else none
    else none

/-- `re.search` with an end-anchored pattern: the leftmost start whose
suffix matches, i.e. the longest matching suffix. -/
def reSearchIdentWs : List Char → Option (List Char)
  | [] => none
  | c :: r =>
    match parseIdentWs (c :: r) with
    | some g => some g
    | none => reSearchIdentWs r

/-- Python `g.split(".")[-1]`. -/
def lastDotSeg (g : List Char) : List Char :=
  (g.reverse.takeWhile (· ≠ '.')).reverse

/-- `is_function_call` from `scripts/sql_format_pass_1.py`:
`re.search(r"([a-zA-Z_][a-zA-Z0-9_]*(?:\.[a-zA-Z_][a-zA-Z0-9_]*)*)\s*$", sql[:idx])`
and membership of the uppercased last dotted segment in
`SNOWFLAKE_FUNCTIONS`. -/
def is_function_call (sql : List Char) (idx : Nat) : Bool :=
  match reSearchIdentWs (sql.take idx) with
  | some g => SNOWFLAKE_FUNCTIONS.contains (upStr (lastDotSeg g))
  | none => false

/-! ## `find_sql_blocks`, `in_block`, `format_sql_commas` -/

/-- The character loop of `find_sql_blocks`: `(` pushes
`(index, is_function_call sql index)`; `)` pops if the stack is nonempty
and records the span when the popped entry was a function call. -/
def fsbGo (sql : List Char) : List Char → Nat → List (Nat × Bool) → List (Nat × Nat) →
    List (Nat × Nat)
  | [], _, _, acc => acc
  | c :: r, i, stck, acc =>
    if c = '(' then fsbGo sql r (i + 1) ((i, is_function_call sql i) :: stck) acc
    else if c = ')' then
      match stck with
      | [] => fsbGo sql r (i + 1) [] acc
      | (st, isf) :: stck' => fsbGo sql r (i + 1) stck' (if isf then acc ++ [(st, i)] else acc)
    else fsbGo sql r (i + 1) stck acc

/-- `find_sql_blocks` from `scripts/sql_format_pass_1.py`. -/
def find_sql_blocks (sql : List Char) : List (Nat × Nat) := fsbGo sql sql 0 [] []

/-- `in_block` from `scripts/sql_format_pass_1.py`. -/
def in_block (idx : Nat) (blocks : List (Nat × Nat)) : Bool :=
  blocks.any fun b => b.1 ≤ idx && idx ≤ b.2

/-- The scan of `re.compile(r"[\s]*,[\s]*").sub(replacement, sql)` in
`format_sql_commas`: a match starts where skipping whitespace lands on a
comma; the replacement is `", "` when the comma position (in the
original string) is in a function block and `"\n, "` otherwise. -/
def fscGo (blocks : List (Nat × Nat)) : Nat → List Char → Nat → List Char
  | 0, s, _ => s
  | _ + 1, [], _ => []
  | fuel + 1, c :: r, pos =>
    if ((c :: r).dropWhile isPySpace).head? = some ',' then
      let w := (c :: r).takeWhile isPySpace
      let tail := ((c :: r).dropWhile isPySpace).tail
      let commaPos := pos + w.length
      let rep := if in_block commaPos blocks then str ", " else str "\n, "
      let tws := tail.takeWhile isPySpace
      rep ++ fscGo blocks fuel (tail.dropWhile isPySpace) (commaPos + 1 + tws.length)
    else c :: fscGo blocks fuel r (pos + 1)

/-- `format_sql_commas` from `scripts/sql_format_pass_1.py`. -/
def format_sql_commas (sql : List Char) : List Char :=
  fscGo (find_sql_blocks sql) (sql.length + 1) sql 0

/-! ## `format_parentheses` -/

/-- `re.findall(r"\s+|[A-Za-z0-9_]+|\(|\)|.", sql_text)`: maximal
whitespace runs, maximal word runs, then single characters. -/
def pyTokensF : Nat → List Char → List (List Char)
  | 0, s => s.map fun c => [c]
  | _ + 1, [] => []
  | fuel + 1, c :: r =>
    if isPySpace c then
      ((c :: r).takeWhile isPySpace) :: pyTokensF fuel ((c :: r).dropWhile isPySpace)
    else if isWordChar c then
      ((c :: r).takeWhile isWordChar) :: pyTokensF fuel ((c :: r).dropWhile isWordChar)
    else [c] :: pyTokensF fuel r

def pyTokens (s : List Char) : List (List Char) := pyTokensF (s.length + 1) s

/-- A Python token is "whitespace" for the lookback when all its
characters are whitespace (tokens are nonempty by construction). -/
def isWsTok (t : List Char) : Bool := t.all isPySpace

/-- `is_cte_context(tokens, index)` from `format_parentheses`, with
`before` the already-scanned tokens in reverse order: the previous
non-whitespace token is `AS` (case-insensitively), is not the first
token, and some earlier token is `WITH`. -/
def isCteContext (before : List (List Char)) : Bool :=
  match before.dropWhile isWsTok with
  | [] => false
  | tok :: pre => upStr tok = str "AS" && !pre.isEmpty && pre.any fun t => upStr t = str "WITH"

/-- Parenthesis context, as tagged by `format_parentheses`. -/
inductive PCtx where
  | fn | cte | grp
deriving Repr, DecidableEq

/-- The token loop of `format_parentheses`: `(` is classified by the
previous non-whitespace token (function set membership, then CTE
context, else group); `)` pops, defaulting to group on an empty stack. -/
def fpGo : List (List Char) → List (List Char) → List PCtx → List Char → List Char
  | [], _, _, out => out
  | tok :: rest, before, stck, out =>
    if tok = ['('] then
      let prevUp : List Char := ((before.dropWhile isWsTok).head?.map upStr).getD []
      if SNOWFLAKE_FUNCTIONS.contains prevUp then
        fpGo rest (tok :: before) (PCtx.fn :: stck) (out ++ str "(")
      else if isCteContext before then
        fpGo rest (tok :: before) (PCtx.cte :: stck) (out ++ str "(\n\n")
      else
        fpGo rest (tok :: before) (PCtx.grp :: stck) (out ++ str "(\n")
    else if tok = [')'] then
      match stck with
      | [] => fpGo rest (tok :: before) [] (out ++ str "\n)")
      | ctx :: stck' =>
        let piece :=
          match ctx with
          | PCtx.fn => str ")"
          | PCtx.cte => str "\n\n)\n\n"
          | PCtx.grp => str "\n)"
        fpGo rest (tok :: before) stck' (out ++ piece)
    else fpGo rest (tok :: before) stck (out ++ tok)

/-- `format_parentheses` from `scripts/sql_format_pass_1.py` (with the
final `\n{3,} → \n\n` normalisation). -/
def format_parentheses (sql : List Char) : List Char :=
  collapseNL (fpGo (pyTokens sql) [] [] [])

/-! ## `ensure_comment_newlines` and `finalize_newlines` -/

/-- `re.sub(r"(?<!\n)--", r"\n--", sql)`: insert a newline before each
`--` not already preceded by one; `prev` is the original character
before the current position. -/
def ecnGo : Nat → Option Char → List Char → List Char
  | 0, _, s => s
  | _ + 1, _, [] => []
  | fuel + 1, prev, c :: r =>
    if c = '-' ∧ r.head? = some '-' ∧ prev ≠ some '\n' then
      '\n' :: '-' :: '-' :: ecnGo fuel (some '-') (r.drop 1)
    else c :: ecnGo fuel (some c) r

/-- `ensure_comment_newlines` from `scripts/sql_format_pass_1.py`. -/
def ensure_comment_newlines (sql : List Char) : List Char := ecnGo (sql.length + 1) none sql

/-- `finalize_newlines` from `scripts/sql_format_pass_1.py` (despite its
docstring it only collapses newline runs). -/
def finalize_newlines (sql : List Char) : List Char := collapseNL sql

/-! ## Indentation engine (`indent_sql_with_children`) -/

/-- `starts_with_major_clause` from `scripts/sql_format_pass_1.py`. -/
def starts_with_major_clause (line : List Char) : Bool :=
  MAJOR_CLAUSES.any fun cl => cl.isPrefixOf (upStr line)

/-- `compute_depth_up_to(lines, n - 1)` from the source: parenthesis
depth over the first `n` lines (the source passes the inclusive index
`n - 1`; this model takes the count `n`, so the source's
`compute_depth_up_to(lines, i)` is `compute_depth_up_to lines (i+1)`
here and the `i = -1` call is `n = 0`). -/
def compute_depth_up_to (lines : List (List Char)) (n : Nat) : Int :=
  ((lines.take n).map fun l => (countChar '(' l : Int) - countChar ')' l).sum

/-- `re.match(r"(^CASE$|.*\bCASE\b$)", upper)` from `process_case_block`:
`upper` (a single line, no newline, so `.*` is unconstrained) ends in
the word `CASE` with a word boundary before it. -/
def caseAtEnd (upper : List Char) : Bool :=
  (str "CASE").isSuffixOf upper &&
    (upper.length = 4 || !isWordChar (upper.getD (upper.length - 5) ' '))

/-- The `while` loop of `process_case_block`
(`scripts/sql_format_pass_1.py`), fuelled and with the recursive call
for a nested `CASE` inlined (the callee's `depth > max_depth` guard and
its `base_indent = indents[start]` read appear at the call site).  The
Python function always terminates: every loop iteration advances `i`,
every return value is at least `start_index + 1`, and the recursion
depth is capped at `max_depth = 10`; one unit of fuel is spent per
iteration and per nested entry, so the `(lines.length + 2) * 16` passed
by the pipeline never runs out.  `base` is the indent of the `CASE`
line.  The source assigns the indent of each line first
(`WHEN ↦ base+1`, `THEN`/`ELSE ↦ base+2`, `END ↦ base+1` and return,
other content `↦ max(existing, base+2)`), then recurses when the line
also ends in the word `CASE` (never the case for an `END` line, which
has returned).  Returns the updated indents and the next line index. -/
def pcbLoop (lines : List (List Char)) : Nat → Nat → Nat → List Nat → Nat → List Nat × Nat
  | 0, _, _, indents, i => (indents, i)
  | fuel + 1, base, depth, indents, i =>
    if i < lines.length then
      let stripped := pyStrip (lines.getD i [])
      let upper := upStr stripped
      if stripped = [] then pcbLoop lines fuel base depth indents (i + 1)
      else if (str "WHEN").isPrefixOf upper then
        let ind2 := indents.set i (base + 1)
        if caseAtEnd upper then
          let r := if depth + 1 > 10 then (ind2, i + 1)
            else pcbLoop lines fuel (ind2.getD i 0) (depth + 1) ind2 (i + 1)
          pcbLoop lines fuel base depth r.1 r.2
        else pcbLoop lines fuel base depth ind2 (i + 1)
      else if (str "THEN").isPrefixOf upper then
        let ind2 := indents.set i (base + 2)
        if caseAtEnd upper then
          let r := if depth + 1 > 10 then (ind2, i + 1)
            else pcbLoop lines fuel (ind2.getD i 0) (depth + 1) ind2 (i + 1)
          pcbLoop lines fuel base depth r.1 r.2
        else pcbLoop lines fuel base depth ind2 (i + 1)
      else if (str "ELSE").isPrefixOf upper then
        let ind2 := indents.set i (base + 2)
        if caseAtEnd upper then
          let r := if depth + 1 > 10 then (ind2, i + 1)
            else pcbLoop lines fuel (ind2.getD i 0) (depth + 1) ind2 (i + 1)
          pcbLoop lines fuel base depth r.1 r.2
        else pcbLoop lines fuel base depth ind2 (i + 1)
      else if (str "END").isPrefixOf upper then
        (indents.set i (base + 1), i + 1)
      else
        let ind2 := indents.set i (max (indents.getD i 0) (base + 2))
        if caseAtEnd upper then
          let r := if depth + 1 > 10 then (ind2, i + 1)
            else pcbLoop lines fuel (ind2.getD i 0) (depth + 1) ind2 (i + 1)
          pcbLoop lines fuel base depth r.1 r.2
        else pcbLoop lines fuel base depth ind2 (i + 1)
    else (indents, i)

/-- `process_case_block` from `scripts/sql_format_pass_1.py`: guard the
recursion depth, read the `CASE` line's indent as base, then run the
loop from the next line. -/
def process_case_block (lines : List (List Char)) (indents : List Nat) (start : Nat)
    (depth : Nat) (fuel : Nat) : List Nat × Nat :=
  if depth > 10 then (indents, start + 1)
  else pcbLoop lines fuel (indents.getD start 0) depth indents (start + 1)

/-- The `while` loop of `process_parentheses_block`: indent lines inside
the parentheses by one until the depth closes. -/
def ppbLoop (lines : List (List Char)) : Nat → List Nat → Nat → Int → List Nat
  | 0, indents, _, _ => indents
  | fuel + 1, indents, i, depth =>
    if i < lines.length ∧ depth > 0 then
      let stripped := pyStrip (lines.getD i [])
      let depth2 := depth + (countChar '(' stripped : Int) - countChar ')' stripped
      if depth2 ≤ 0 then indents
      else ppbLoop lines fuel (indents.set i (indents.getD i 0 + 1)) (i + 1) depth2
    else indents

/-- `process_parentheses_block` from `scripts/sql_format_pass_1.py`
(the returned loop index is unused by the caller and dropped). -/
def process_parentheses_block (lines : List (List Char)) (indents : List Nat)
    (start : Nat) : List Nat :=
  ppbLoop lines (lines.length + 1) indents (start + 1) 1

/-- The `while` loop of `process_major_clause`. -/
def pmcLoop (lines : List (List Char)) (clauseIsSelect : Bool) (base : Int) :
    Nat → List Nat → Nat → List Nat
  | 0, indents, _ => indents
  | fuel + 1, indents, i =>
    if i < lines.length then
      let stripped := pyStrip (lines.getD i [])
      if stripped = [] then pmcLoop lines clauseIsSelect base fuel indents (i + 1)
      else
        let depthBefore := compute_depth_up_to lines i
        let depthAfter := depthBefore + (countChar '(' (lines.getD i []) : Int)
          - countChar ')' (lines.getD i [])
        if (str ";").isPrefixOf stripped then indents
        else if starts_with_major_clause stripped && (depthBefore - base = 0) then indents
        else if depthAfter - base < 0 then indents
        else
          let extra : Nat := if clauseIsSelect && !(str ",").isPrefixOf stripped then 1 else 0
          pmcLoop lines clauseIsSelect base fuel
            (indents.set i (indents.getD i 0 + 1 + extra)) (i + 1)
    else indents

/-- `process_major_clause` from `scripts/sql_format_pass_1.py`: the
clause type is the first whitespace-separated word of the upper-cased
stripped clause line; only `SELECT` gets the extra indent rule. -/
def process_major_clause (lines : List (List Char)) (indents : List Nat)
    (start : Nat) : List Nat :=
  let clauseType := (upStr (pyStrip (lines.getD start []))).takeWhile fun c => !isPySpace c
  pmcLoop lines (clauseType = str "SELECT") (compute_depth_up_to lines start)
    (lines.length + 1) indents (start + 1)

/-- The main loop of `indent_sql_with_children`: a line ending in `CASE`
launches the CASE child (and jumps to its returned index); otherwise a
line ending in `(` launches the parentheses child and a line starting
with a major clause launches the clause child, then the loop advances by
one.  Fuelled: each iteration advances the index by at least one (the
CASE child returns at least `i + 1`), so `lines.length + 2` suffices. -/
def iswcLoop (lines : List (List Char)) (indents : List Nat) (i : Nat) :
    Nat → List Nat
  | 0 => indents
  | fuel + 1 =>
    if i < lines.length then
      let stripped := pyStrip (lines.getD i [])
      let upper := upStr stripped
      if stripped = [] then iswcLoop lines indents (i + 1) fuel
      else if (str "CASE").isSuffixOf upper then
        let r := process_case_block lines indents i 0 ((lines.length + 2) * 16)
        iswcLoop lines r.1 r.2 fuel
      else
        let ind1 := if (str "(").isSuffixOf stripped then
          process_parentheses_block lines indents i else indents
        let ind2 := if starts_with_major_clause stripped then
          process_major_clause lines ind1 i else ind1
        iswcLoop lines ind2 (i + 1) fuel
    else indents

/-- `indent_sql_with_children` from `scripts/sql_format_pass_1.py`:
compute the per-line indents, then emit each non-blank line as
`"    " * level + stripped` (blank lines become empty). -/
def indent_sql_with_children (sql : List Char) : List Char :=
  let lines := pySplitlines sql
  let indents := iswcLoop lines (List.replicate lines.length 0) 0 (lines.length + 2)
  let outLines := (lines.zip indents).map fun p =>
    let stripped := pyStrip p.1
    if stripped = [] then ([] : List Char)
    else List.replicate (4 * p.2) ' ' ++ stripped
  joinNL outLines

/-! ## Pipeline driver

The in-memory formatting transform of `process_sql_file`
(`scripts/sql_format_pass_1.py`, lines 556–584): the exact sequence of
stages between reading the file and the version-comment/audit handling,
with no file I/O.  This is the `format(text) -> text` transform of the
specification. -/

def format_pipeline (rawSql : List Char) : List Char :=
  let ep := extract_placeholders rawSql
  let f1 := flatten_sql_whitespace ep.1 false
  let f2 := normalize_operators f1
  let f3 := format_sql_keywords f2
  let f4 := format_sql_commas f3
  let f5 := format_parentheses f4
  let f6 := indent_sql_with_children f5
  let f7 := restore_placeholders f6 ep.2
  let f8 := ensure_comment_newlines f7
  finalize_newlines f8

/-- The whitespace-insensitive, case-insensitive token stream of a text,
as used by the specification's content-preservation claim: the sequence
of non-whitespace characters, lower-cased (two texts have the same
token sequence modulo whitespace exactly when these agree). -/
def tokenStreamCI (s : List Char) : List Char :=
  (s.filter fun c => !isPySpace c).map Char.toLower

/-! ## `reindent_sql` from `sql_format_tool/sql_format_pass_1.py`

A transcription of the stack-based reindentation of the second pipeline
file.  Python list indexing raises `IndexError` on an empty list; the
one unguarded indexing site (`clause_stack[-1]` directly after possibly
popping the last `PAREN` frame) is modelled by returning `none`. -/

/-- The frame kinds of `reindent_sql`'s `clause_stack` entries. -/
inductive FrameTy where
  | CLAUSE | CASE | WHEN | THENELSE | ANDOR | OVER | WITHINGROUP | PAREN
deriving Repr, DecidableEq

/-- One `clause_stack` entry: `{"type": …, "keyword": …, "inherited_indent": …}`. -/
structure Frame where
  ty : FrameTy
  kw : List Char
  inh : Nat
deriving Repr, DecidableEq

/-- `MAJOR_CLAUSES` local to `reindent_sql`. -/
def RS_MAJOR_CLAUSES : List (List Char) :=
  [str "SELECT", str "FROM", str "WHERE", str "GROUP BY", str "ORDER BY", str "HAVING",
   str "LIMIT", str "UNION", str "JOIN", str "LEFT JOIN", str "RIGHT JOIN", str "FULL JOIN",
   str "INNER JOIN", str "OUTER JOIN", str "CROSS JOIN", str "LEFT OUTER JOIN",
   str "RIGHT OUTER JOIN", str "EXCEPT", str "INTERSECT", str "MINUS", str "QUALIFY",
   str "USING"]

/-- `is_major_clause` local to `reindent_sql`: the upper-cased line is a
clause word or starts with it followed by a space. -/
def rsIsMajorClause (line : List Char) : Bool :=
  RS_MAJOR_CLAUSES.any fun c => upStr line = c || (c ++ [' ']).isPrefixOf (upStr line)

/-- `current_indent_offset()`. -/
def rsOffset (stack : List Frame) : Nat := (stack.map Frame.inh).sum

/-- `indent * level` with the default `indent = "    "`. -/
def rsIndent (level : Nat) : List Char := List.replicate (4 * level) ' '

/-- Mutable state of `reindent_sql`'s loop. -/
structure RState where
  stack : List Frame
  afterSelect : Bool
  result : List (List Char)

/-- First whitespace-separated word: `upper.split()[0]` (the lines it is
applied to are stripped and nonempty). -/
def firstWord (upper : List Char) : List Char := upper.takeWhile fun c => !isPySpace c

/-- The body of `reindent_sql`'s `for raw_line in lines` loop for one
line; `none` models the `IndexError` of `clause_stack[-1]` on an empty
stack after the `PAREN` pop. -/
def rsLine (st : RState) (rawLine : List Char) : Option RState :=
  let stripped := pyStrip rawLine
  let upper := upStr stripped
  if (str "/*").isPrefixOf stripped || (str "--").isPrefixOf stripped then
    some ⟨st.stack, st.afterSelect, st.result ++ [stripped]⟩
  else if stripped = str ";" then
    some ⟨[], false, st.result ++ [str ";"]⟩
  else
    -- "Pops" for WHEN / THEN / ELSE
    let stack1 :=
      if (str "WHEN").isPrefixOf upper then
        st.stack.dropWhile fun f => f.ty = FrameTy.WHEN || f.ty = FrameTy.THENELSE
      else if (str "THEN").isPrefixOf upper || (str "ELSE").isPrefixOf upper then
        st.stack.dropWhile fun f => f.ty = FrameTy.THENELSE
      else st.stack
    -- Closing parenthesis handling
    if (str ")").isPrefixOf stripped ∧ stack1 ≠ [] then
      let stack2 := if (stack1.head?.map Frame.ty) = some FrameTy.PAREN then stack1.tail
        else stack1
      match stack2.head? with
      | none => none   -- IndexError: clause_stack[-1] with the stack emptied
      | some topf =>
        if topf.ty = FrameTy.OVER || topf.ty = FrameTy.WITHINGROUP then
          some ⟨stack2.tail, st.afterSelect,
            st.result ++ [rsIndent (rsOffset stack2) ++ stripped]⟩
        else
          let stack3 := stack2.dropWhile fun f => f.kw ≠ str "("
          let stack4 := if (stack3.head?.map Frame.kw) = some (str "(") then stack3.tail
            else stack3
          rsRest st stripped upper stack4
    else rsRest st stripped upper stack1
where
  /-- The remainder of the loop body after the closing-parenthesis
  handling (shared by the fall-through paths). -/
  rsRest (st : RState) (stripped upper : List Char) (stackA : List Frame) : Option RState :=
    -- Pop previous major clause
    let stackB := if rsIsMajorClause stripped ∧
        (stackA.head?.map Frame.ty) = some FrameTy.CLAUSE then stackA.tail else stackA
    -- Special END handling
    if (str "END").isPrefixOf upper then
      let stackC := stackB.dropWhile fun f =>
        f.ty = FrameTy.THENELSE || f.ty = FrameTy.WHEN
      let extra := if st.afterSelect then str "  " else []
      let stackD := if (stackC.head?.map Frame.ty) = some FrameTy.CASE then stackC.tail
        else stackC
      some ⟨stackD, false, st.result ++ [rsIndent (rsOffset stackC) ++ extra ++ stripped]⟩
    else
      -- OVER and WITHIN GROUP blocks
      let s1 := if hasSub (str "OVER (") upper then
        ⟨FrameTy.OVER, str "OVER", 1⟩ :: stackB else stackB
      let s2 := if hasSub (str "WITHIN GROUP (") upper then
        ⟨FrameTy.WITHINGROUP, str "WITHIN GROUP", 1⟩ :: s1 else s1
      -- Indentation for the current line
      let isMaj := rsIsMajorClause stripped
      let useExtra := st.afterSelect ∧ ¬isMaj = true ∧ upper ≠ str "SELECT"
      let extra := if useExtra then str "  " else []
      let aft1 := if useExtra then false else st.afterSelect
      let line := rsIndent (rsOffset s2) ++ extra ++ stripped
      -- Pushes
      let pushed : List Frame × Bool :=
        if isMaj then
          if (str "ORDER BY").isPrefixOf upper ∧
              s2.any (fun f => f.ty = FrameTy.OVER || f.ty = FrameTy.WITHINGROUP) then
            (s2, aft1)
          else
            (⟨FrameTy.CLAUSE, firstWord upper, 1⟩ :: s2,
             (str "SELECT").isPrefixOf upper)
        else if (str "CASE").isSuffixOf upper then
          (⟨FrameTy.CASE, str "CASE", 1⟩ :: s2, aft1)
        else if (str "WHEN").isPrefixOf upper then
          (⟨FrameTy.WHEN, str "WHEN", 1⟩ :: s2, aft1)
        else if (str "THEN").isPrefixOf upper || (str "ELSE").isPrefixOf upper then
          (⟨FrameTy.THENELSE, firstWord upper, 2⟩ :: s2, aft1)
        else if (str "AND").isPrefixOf upper || (str "OR").isPrefixOf upper then
          let inCase := s2.any fun f => f.ty = FrameTy.CASE
          (⟨FrameTy.ANDOR, firstWord upper, if inCase then 1 else 0⟩ :: s2, aft1)
        else (s2, aft1)
      let s3 := if (str "(").isSuffixOf stripped then
        ⟨FrameTy.PAREN, str "(", 1⟩ :: pushed.1 else pushed.1
      some ⟨s3, pushed.2, st.result ++ [line]⟩

/-- `reindent_sql` from `sql_format_tool/sql_format_pass_1.py` with the
default `indent`; `none` models an `IndexError` escaping the function. -/
def reindent_sql (sql : List Char) : Option (List Char) :=
  ((pySplitlines sql).foldlM rsLine ⟨[], false, []⟩).map fun st => joinNL st.result

/-! ## Definitions supporting the claim statements -/

/-- A line carrying the pass-1 version marker of the surrounding tooling
(`-- sqlfluff-pass1-version: <n>`). -/
def isPass1MarkerLine (l : List Char) : Bool :=
  (str "-- sqlfluff-pass1-version:").isPrefixOf l

/-- The lines of a text with pass-1 marker lines removed: two outputs
"differ only in the marker line" exactly when these agree. -/
def dropPass1MarkerLines (s : List Char) : List (List Char) :=
  (pySplitlines s).filter fun l => !isPass1MarkerLine l

/-- Twelve nested `CASE` openers followed by a `WHEN` line: the nesting
depth at the `WHEN` is 12, beyond the recursion cap of
`process_case_block`. -/
def deepCaseLines : List (List Char) := List.replicate 12 (str "CASE") ++ [str "WHEN x"]

/-- The indents `indent_sql_with_children` computes for `deepCaseLines`
(its main loop launches `process_case_block` at line 0 with depth 0 and
fuel `(lines.length + 2) * 16`). -/
def deepCaseIndents : List Nat :=
  (process_case_block deepCaseLines (List.replicate 13 0) 0 0 ((13 + 2) * 16)).1

/-! ## Specification-side definitions (written from the claims' words)

These are deliberately written from the specification text, to be
compared with the source-derived definitions above. -/

/-- A dotted identifier in the claim's sense (`schema.func`): one or
more segments separated by single dots, each starting with a letter or
underscore and continuing with word characters. -/
def dottedIdentOk : List Char → Bool
  | [] => false
  | c :: r =>
    isIdentStart c &&
      (let rest := r.dropWhile isWordChar
       rest.isEmpty || ((rest.head? = some '.') && dottedIdentOk rest.tail))
termination_by s => s.length
decreasing_by
  have h1 : ∀ (l : List Char), (l.dropWhile isWordChar).length ≤ l.length := by
    intro l
    induction l with
    | nil => simp [List.dropWhile]
    | cons x xs ih =>
      rw [List.dropWhile_cons]
      split
      · exact le_trans ih (by simp)
      · simp
  have h2 : (r.dropWhile isWordChar).tail.length ≤ (r.dropWhile isWordChar).length := by
    simp [List.length_tail]
  have h3 := h1 r
  simp only [List.length_cons]
  omega

/-- The longest suffix of the text that is a dotted identifier (the
claim's "longest dotted identifier immediately preceding"). -/
def longestDottedSuffix : List Char → Option (List Char)
  | [] => none
  | c :: r => if dottedIdentOk (c :: r) then some (c :: r) else longestDottedSuffix r

/-- The classifier as the claim describes it: skip whitespace back from
the parenthesis, take the longest dotted identifier ending there,
uppercase its final segment and test membership in the function-name
set; `false` when no identifier precedes. -/
def is_function_call_spec (sql : List Char) (idx : Nat) : Bool :=
  match longestDottedSuffix (pyRStrip (sql.take idx)) with
  | some g => SNOWFLAKE_FUNCTIONS.contains (upStr (lastDotSeg g))
  | none => false

/-- Shape of the word-or-dot prefix that may follow the first segment of
a dotted identifier: empty, or a dot followed by a dotted identifier. -/
def tailOkShape (p : List Char) : Prop :=
  p = [] ∨ ∃ rest, p = '.' :: rest ∧ dottedIdentOk rest = true

/-- The matching scan the claim's "function-call parenthesis span"
refers to: from position `pos`, `depth` counts parentheses opened after
the tracked one that are still unclosed; returns the position of the
`)` that closes the tracked parenthesis. -/
def closeScanO : List Char → Nat → Nat → Option Nat
  | [], _, _ => none
  | c :: r, pos, depth =>
    if c = '(' then closeScanO r (pos + 1) (depth + 1)
    else if c = ')' then
      match depth with
      | 0 => some pos
      | d + 1 => closeScanO r (pos + 1) d
    else closeScanO r (pos + 1) depth

/-- The position of the `)` matching the `(` at position `st`. -/
def closeOf (sql : List Char) (st : Nat) : Option Nat :=
  closeScanO (sql.drop (st + 1)) (st + 1) 0

/-- The claim's "inside a function-call parenthesis span": some `(`
classified as a function call opens at `st ≤ idx` and its matching `)`
closes at `en ≥ idx`. -/
def isFnSpanIdx (sql : List Char) (idx : Nat) : Bool :=
  (List.range sql.length).any fun st =>
    decide (sql.getD st ' ' = '(') && is_function_call sql st &&
      (match closeOf sql st with
       | some en => decide (st ≤ idx) && decide (idx ≤ en)
       | none => false)

/-- The comma substitution as the claim words it: each comma (with the
whitespace around it absorbed) is rendered inline as `", "` when it lies
inside a function-call span and as `"\n, "` otherwise; `inb` is the
span-membership test on original positions. -/
def commaSpecGo (inb : Nat → Bool) : Nat → List Char → Nat → List Char
  | 0, s, _ => s
  | _ + 1, [], _ => []
  | fuel + 1, c :: r, pos =>
    if ((c :: r).dropWhile isPySpace).head? = some ',' then
      let w := (c :: r).takeWhile isPySpace
      let tail := ((c :: r).dropWhile isPySpace).tail
      let commaPos := pos + w.length
      let rep := if inb commaPos then str ", " else str "\n, "
      let tws := tail.takeWhile isPySpace
      rep ++ commaSpecGo inb fuel (tail.dropWhile isPySpace) (commaPos + 1 + tws.length)
    else c :: commaSpecGo inb fuel r (pos + 1)

/-- `format_sql_commas` as the claim describes it, with span membership
decided by recursive parenthesis matching. -/
def format_sql_commas_spec (sql : List Char) : List Char :=
  commaSpecGo (isFnSpanIdx sql) (sql.length + 1) sql 0

/-! ## Helper lemmas -/

theorem identStart_word {c : Char} (h : isIdentStart c = true) : isWordChar c = true := by
  simp only [isIdentStart, Bool.or_eq_true, Bool.and_eq_true, decide_eq_true_eq] at h
  simp only [isWordChar, Bool.or_eq_true, Bool.and_eq_true, decide_eq_true_eq]
  tauto

theorem pySpace_not_word {c : Char} (h : isPySpace c = true) : isWordChar c = false := by
  simp only [isPySpace, Bool.or_eq_true, decide_eq_true_eq] at h
  rcases h with (((((h | h) | h) | h) | h) | h) <;> subst h <;> decide

theorem pySpace_not_identStart {c : Char} (h : isPySpace c = true) :
    isIdentStart c = false := by
  simp only [isPySpace, Bool.or_eq_true, decide_eq_true_eq] at h
  rcases h with (((((h | h) | h) | h) | h) | h) <;> subst h <;> decide

theorem pySpace_not_wordDot {c : Char} (h : isPySpace c = true) : isWordDot c = false := by
  simp only [isPySpace, Bool.or_eq_true, decide_eq_true_eq] at h
  rcases h with (((((h | h) | h) | h) | h) | h) <;> subst h <;> decide

theorem word_not_pySpace {c : Char} (h : isWordChar c = true) : isPySpace c = false := by
  by_contra hc
  have := pySpace_not_word (c := c) (by revert hc; cases isPySpace c <;> simp)
  rw [h] at this
  cases this

theorem word_wordDot {c : Char} (h : isWordChar c = true) : isWordDot c = true := by
  simp [isWordDot, h]

theorem len_dropWhile_le (p : Char → Bool) (l : List Char) :
    (l.dropWhile p).length ≤ l.length := by
  induction l with
  | nil => simp [List.dropWhile]
  | cons c r ih =>
    rw [List.dropWhile_cons]
    split
    · exact le_trans ih (by simp)
    · simp

theorem findDelim_append {delim : List Char} :
    ∀ {s t a : List Char}, findDelim delim s = some (t, a) → t ++ a = s := by
  intro s
  induction s with
  | nil =>
    intro t a h
    simp only [findDelim] at h
    split at h
    · next hd =>
      simp only [Option.some.injEq, Prod.mk.injEq] at h
      obtain ⟨h1, h2⟩ := h
      simp [← h1, ← h2, hd]
    · exact absurd h (by simp)
  | cons c r ih =>
    intro t a h
    simp only [findDelim] at h
    split at h
    · next hpre =>
      simp only [Option.some.injEq, Prod.mk.injEq] at h
      obtain ⟨h1, h2⟩ := h
      have hp : delim <+: (c :: r) := (List.isPrefixOf_iff_prefix).1 hpre
      obtain ⟨u, hu⟩ := hp
      subst h1 h2
      rw [← hu]
      simp [List.drop_left']
    · simp only [Option.map_eq_some'] at h
      obtain ⟨p, hp, hval⟩ := h
      have := ih hp
      cases hval
      simp only [List.cons_append]
      rw [this]

theorem scanQuote_append {q : Char} :
    ∀ {fuel : Nat} {s t a : List Char}, scanQuote q fuel s = some (t, a) → t ++ a = s := by
  intro fuel
  induction fuel with
  | zero =>
    intro s t a h
    match s with
    | [] => simp [scanQuote] at h
    | [c] =>
      simp only [scanQuote] at h
      split at h
      · next hc =>
        simp only [Option.some.injEq, Prod.mk.injEq] at h
        obtain ⟨h1, h2⟩ := h
        simp [← h1, ← h2, hc]
      · exact absurd h (by simp)
    | c1 :: c2 :: r => simp [scanQuote] at h
  | succ fuel ih =>
    intro s t a h
    match s with
    | [] => simp [scanQuote] at h
    | [c] =>
      simp only [scanQuote] at h
      split at h
      · next hc =>
        simp only [Option.some.injEq, Prod.mk.injEq] at h
        obtain ⟨h1, h2⟩ := h
        simp [← h1, ← h2, hc]
      · exact absurd h (by simp)
    | c1 :: c2 :: r =>
      rw [scanQuote] at h
      by_cases hc1 : c1 = q
      · rw [if_pos hc1] at h
        by_cases hc2 : c2 = q
        · rw [if_pos hc2] at h
          cases hrec : scanQuote q fuel r with
          | some p =>
            obtain ⟨t', rest'⟩ := p
            rw [hrec] at h
            simp only [Option.some.injEq, Prod.mk.injEq] at h
            obtain ⟨h1, h2⟩ := h
            have hr : t' ++ rest' = r := ih hrec
            subst h1 h2 hc1 hc2
            simp [hr]
          | none =>
            rw [hrec] at h
            simp only [Option.some.injEq, Prod.mk.injEq] at h
            obtain ⟨h1, h2⟩ := h
            subst h1 h2 hc1
            simp
        · rw [if_neg hc2] at h
          simp only [Option.some.injEq, Prod.mk.injEq] at h
          obtain ⟨h1, h2⟩ := h
          subst h1 h2 hc1
          simp
      · rw [if_neg hc1] at h
        cases hrec : scanQuote q fuel (c2 :: r) with
        | some p =>
          obtain ⟨t', rest'⟩ := p
          rw [hrec] at h
          simp only [Option.map_some', Option.some.injEq, Prod.mk.injEq] at h
          obtain ⟨h1, h2⟩ := h
          have hr : t' ++ rest' = c2 :: r := ih hrec
          subst h1 h2
          simp [hr]
        | none =>
          rw [hrec] at h
          simp at h

theorem matchProt_append {s lbl m rest : List Char}
    (h : matchProt s = some (lbl, m, rest)) : m ++ rest = s := by
  unfold matchProt at h
  split at h
  · next r =>
    simp only [Option.some.injEq, Prod.mk.injEq] at h
    obtain ⟨_, h2, h3⟩ := h
    subst h2 h3
    simp [List.takeWhile_append_dropWhile]
  · next r =>
    simp only [Option.map_eq_some'] at h
    obtain ⟨p, hp, hval⟩ := h
    obtain ⟨p1, p2⟩ := p
    have := findDelim_append hp
    simp only [Prod.mk.injEq] at hval
    obtain ⟨_, h2, h3⟩ := hval
    subst h2 h3
    simp [← this]
  · next r =>
    simp only [Option.map_eq_some'] at h
    obtain ⟨p, hp, hval⟩ := h
    obtain ⟨p1, p2⟩ := p
    have := findDelim_append hp
    simp only [Prod.mk.injEq] at hval
    obtain ⟨_, h2, h3⟩ := hval
    subst h2 h3
    simp [← this]
  · next r =>
    split at h
    · next r2 =>
      split at h
      · next p hp =>
        obtain ⟨p1, p2⟩ := p
        have := findDelim_append hp
        simp only [Option.some.injEq, Prod.mk.injEq] at h
        obtain ⟨_, h2, h3⟩ := h
        subst h2 h3
        simp only [List.cons_append, List.cons.injEq, true_and]
        rw [this]
      · next hp =>
        split at h
        · next hpre =>
          simp only [Option.some.injEq, Prod.mk.injEq] at h
          obtain ⟨_, h2, h3⟩ := h
          subst h2 h3
          have hp2 : (str "%\x7d") <+: r2 := (List.isPrefixOf_iff_prefix).1 hpre
          obtain ⟨u, hu⟩ := hp2
          rw [← hu]
          simp [str]
        · exact absurd h (by simp)
    · next hne =>
      simp only [Option.map_eq_some'] at h
      obtain ⟨p, hp, hval⟩ := h
      obtain ⟨p1, p2⟩ := p
      have := findDelim_append hp
      simp only [Prod.mk.injEq] at hval
      obtain ⟨_, h2, h3⟩ := hval
      subst h2 h3
      simp [← this]
  · next r =>
    simp only [Option.map_eq_some'] at h
    obtain ⟨p, hp, hval⟩ := h
    obtain ⟨p1, p2⟩ := p
    have := findDelim_append hp
    simp only [Prod.mk.injEq] at hval
    obtain ⟨_, h2, h3⟩ := hval
    subst h2 h3
    simp [← this]
  · next r =>
    simp only [Option.map_eq_some'] at h
    obtain ⟨p, hp, hval⟩ := h
    obtain ⟨p1, p2⟩ := p
    have := scanQuote_append hp
    simp only [Prod.mk.injEq] at hval
    obtain ⟨_, h2, h3⟩ := hval
    subst h2 h3
    simp [← this]
  · next r =>
    simp only [Option.map_eq_some'] at h
    obtain ⟨p, hp, hval⟩ := h
    obtain ⟨p1, p2⟩ := p
    have := scanQuote_append hp
    simp only [Prod.mk.injEq] at hval
    obtain ⟨_, h2, h3⟩ := hval
    subst h2 h3
    simp [← this]
  · exact absurd h (by simp)

theorem matchProt_ne_nil {s lbl m rest : List Char}
    (h : matchProt s = some (lbl, m, rest)) : m ≠ [] := by
  unfold matchProt at h
  split at h <;>
    first
      | (simp only [Option.some.injEq, Prod.mk.injEq] at h;
         obtain ⟨_, h2, _⟩ := h; subst h2; simp)
      | (simp only [Option.map_eq_some'] at h;
         obtain ⟨p, _, hval⟩ := h;
         simp only [Prod.mk.injEq] at hval;
         obtain ⟨_, h2, _⟩ := hval; subst h2; simp [str])
      | skip
  · -- jinja statement case, with its inner splits
    split at h
    · split at h
      · simp only [Option.some.injEq, Prod.mk.injEq] at h
        obtain ⟨_, h2, _⟩ := h; subst h2; simp
      · split at h
        · simp only [Option.some.injEq, Prod.mk.injEq] at h
          obtain ⟨_, h2, _⟩ := h; subst h2; simp [str]
        · exact absurd h (by simp)
    · simp only [Option.map_eq_some'] at h
      obtain ⟨p, _, hval⟩ := h
      simp only [Prod.mk.injEq] at hval
      obtain ⟨_, h2, _⟩ := hval; subst h2; simp
  · exact absurd h (by simp)

theorem matchProt_rest_lt {s lbl m rest : List Char}
    (h : matchProt s = some (lbl, m, rest)) : rest.length < s.length := by
  have happ := matchProt_append h
  have hne := matchProt_ne_nil h
  have : m.length + rest.length = s.length := by
    rw [← happ]; simp
  have : 0 < m.length := List.length_pos.2 hne
  omega

theorem origChunks_map_raw (s : List Char) : origChunks (s.map Chunk.raw) = s := by
  induction s with
  | nil => rfl
  | cons c r ih => simp only [List.map_cons, origChunks, ih]

theorem chunksOfF_orig : ∀ (fuel : Nat) (s : List Char), origChunks (chunksOfF fuel s) = s := by
  intro fuel
  induction fuel with
  | zero => exact fun s => origChunks_map_raw s
  | succ fuel ih =>
    intro s
    cases s with
    | nil => rfl
    | cons c r =>
      rw [chunksOfF]
      cases hm : matchProt (c :: r) with
      | some p =>
        obtain ⟨lbl, m, rest⟩ := p
        simp only [origChunks, ih]
        exact matchProt_append hm
      | none =>
        rw [origChunks, ih r]

theorem chunksOf_orig (s : List Char) : origChunks (chunksOf s) = s :=
  chunksOfF_orig (s.length + 1) s

theorem kwAt_mem {b : Bool} {s kw : List Char} (h : kwAt b s = some kw) :
    kw ∈ KEYWORDS := by
  unfold kwAt at h
  split at h
  · exact absurd h (by simp)
  · obtain ⟨a, ha, hfa⟩ := List.exists_of_findSome?_eq_some h
    split at hfa
    · split at hfa
      · split at hfa
        · exact absurd hfa (by simp)
        · cases hfa; exact ha
      · cases hfa; exact ha
    · exact absurd hfa (by simp)

theorem keywords_ne_nil : ∀ kw ∈ KEYWORDS, kw ≠ [] := by decide

theorem kwAt_ne_nil {b : Bool} {s kw : List Char} (h : kwAt b s = some kw) :
    kw ≠ [] :=
  keywords_ne_nil kw (kwAt_mem h)

theorem dropWhile_head_false (p : Char → Bool) (l : List Char) (c : Char) (r : List Char)
    (h : l.dropWhile p = c :: r) : p c = false := by
  induction l with
  | nil => simp [List.dropWhile] at h
  | cons x xs ih =>
    rw [List.dropWhile_cons] at h
    split at h
    · exact ih h
    · next hx =>
      cases h
      revert hx
      cases p c <;> simp

theorem dropWhile_append_of_not_all {p : Char → Bool} :
    ∀ (a b : List Char), a.all p = false →
      (a ++ b).dropWhile p = a.dropWhile p ++ b := by
  intro a
  induction a with
  | nil => intro b h; simp at h
  | cons x xs ih =>
    intro b h
    rw [List.cons_append, List.dropWhile_cons, List.dropWhile_cons]
    by_cases hx : p x = true
    · rw [if_pos hx, if_pos hx]
      apply ih
      simpa [hx] using h
    · rw [if_neg hx, if_neg hx]
      simp

theorem all_ws_dropWhile_word {w : List Char} (hw : w.all isPySpace = true) :
    w.dropWhile isWordChar = w := by
  cases w with
  | nil => rfl
  | cons c r =>
    rw [List.dropWhile_cons]
    have hc : isPySpace c = true := by
      simp only [List.all_cons, Bool.and_eq_true] at hw
      exact hw.1
    rw [pySpace_not_word hc]
    simp

theorem all_ws_dropWhile_wordDot {w : List Char} (hw : w.all isPySpace = true) :
    w.dropWhile isWordDot = w := by
  cases w with
  | nil => rfl
  | cons c r =>
    rw [List.dropWhile_cons]
    have hc : isPySpace c = true := by
      simp only [List.all_cons, Bool.and_eq_true] at hw
      exact hw.1
    rw [pySpace_not_wordDot hc]
    simp

theorem all_ws_takeWhile_wordDot {w : List Char} (hw : w.all isPySpace = true) :
    w.takeWhile isWordDot = [] := by
  cases w with
  | nil => rfl
  | cons c r =>
    rw [List.takeWhile_cons]
    have hc : isPySpace c = true := by
      simp only [List.all_cons, Bool.and_eq_true] at hw
      exact hw.1
    rw [pySpace_not_wordDot hc]
    simp

theorem dottedIdentOk_destruct {c : Char} {r : List Char}
    (h : dottedIdentOk (c :: r) = true) :
    isIdentStart c = true ∧
      (r.dropWhile isWordChar = [] ∨
        ∃ rest, r.dropWhile isWordChar = '.' :: rest ∧ dottedIdentOk rest = true) := by
  rw [dottedIdentOk] at h
  simp only [Bool.and_eq_true, Bool.or_eq_true, List.isEmpty_iff, decide_eq_true_eq] at h
  refine ⟨h.1, ?_⟩
  rcases h.2 with h2 | ⟨hh, ht⟩
  · exact Or.inl h2
  · right
    cases he : r.dropWhile isWordChar with
    | nil => rw [he] at hh; cases hh
    | cons x xs =>
      rw [he] at hh ht
      simp only [List.head?_cons, Option.some.injEq] at hh
      subst hh
      exact ⟨xs, rfl, by simpa using ht⟩

theorem dottedIdentOk_construct {c : Char} {r : List Char}
    (h1 : isIdentStart c = true)
    (h2 : r.dropWhile isWordChar = [] ∨
        ∃ rest, r.dropWhile isWordChar = '.' :: rest ∧ dottedIdentOk rest = true) :
    dottedIdentOk (c :: r) = true := by
  rw [dottedIdentOk]
  simp only [h1, Bool.true_and, Bool.or_eq_true, Bool.and_eq_true,
    List.isEmpty_iff, decide_eq_true_eq]
  rcases h2 with h2 | ⟨rest, he, hr⟩
  · exact Or.inl h2
  · right
    rw [he]
    simpa using hr

theorem dottedIdentOk_seg {c : Char} {seg p : List Char}
    (hc : isIdentStart c = true) (hseg : ∀ x ∈ seg, isWordChar x = true)
    (hp : tailOkShape p) : dottedIdentOk (c :: (seg ++ p)) = true := by
  apply dottedIdentOk_construct hc
  rw [List.dropWhile_append_of_pos hseg]
  rcases hp with rfl | ⟨rest, rfl, hr⟩
  · exact Or.inl rfl
  · rw [List.dropWhile_cons]
    rw [show isWordChar '.' = false from by decide]
    simp only [Bool.false_eq_true, if_false]
    exact Or.inr ⟨rest, rfl, hr⟩

theorem identTailOkF_dot {fuel : Nat} {c : Char} {r : List Char} :
    identTailOkF (fuel + 1) ('.' :: c :: r) =
      if isIdentStart c then identTailOkF fuel ((c :: r).dropWhile isWordChar)
      else false := rfl

theorem identTailOkF_ws {fuel : Nat} {s : List Char} (hs : s.all isPySpace = true) :
    identTailOkF (fuel + 1) s = true := by
  unfold identTailOkF
  split
  · next c r =>
    exfalso
    simp only [List.all_cons, Bool.and_eq_true] at hs
    exact absurd hs.1 (by decide)
  · exact hs

theorem dottedIdentOk_all_wordDot (n : Nat) :
    ∀ g, g.length ≤ n → dottedIdentOk g = true → ∀ x ∈ g, isWordDot x = true := by
  induction n with
  | zero =>
    intro g hn hg
    cases g with
    | nil => intro x hx; cases hx
    | cons c r => simp at hn
  | succ n ih =>
    intro g hn hg
    cases g with
    | nil => intro x hx; cases hx
    | cons c r =>
      obtain ⟨hc, hrest⟩ := dottedIdentOk_destruct hg
      intro x hx
      rcases List.mem_cons.1 hx with rfl | hx
      · exact word_wordDot (identStart_word hc)
      · have hr : r = r.takeWhile isWordChar ++ r.dropWhile isWordChar :=
          (List.takeWhile_append_dropWhile isWordChar r).symm
        rw [hr] at hx
        rcases List.mem_append.1 hx with hx1 | hx2
        · exact word_wordDot (List.mem_takeWhile_imp hx1)
        · rcases hrest with hnil | ⟨rest, hre, hrv⟩
          · rw [hnil] at hx2; cases hx2
          · rw [hre] at hx2
            rcases List.mem_cons.1 hx2 with rfl | hx2
            · decide
            · have hlen := len_dropWhile_le isWordChar r
              rw [hre] at hlen
              simp only [List.length_cons] at hlen
              simp only [List.length_cons] at hn
              exact ih rest (by omega) hrv x hx2

theorem identTailOkF_of_dotted (n : Nat) :
    ∀ (g w : List Char) (fuel : Nat), g.length ≤ n →
      dottedIdentOk g = true → w.all isPySpace = true → g.length + 1 ≤ fuel →
      identTailOkF fuel ('.' :: (g ++ w)) = true := by
  induction n with
  | zero =>
    intro g w fuel hn hg hw hf
    cases g with
    | nil => rw [dottedIdentOk] at hg; cases hg
    | cons c r => simp at hn
  | succ n ih =>
    intro g w fuel hn hg hw hf
    cases g with
    | nil => rw [dottedIdentOk] at hg; cases hg
    | cons c r =>
      obtain ⟨hc, hrest⟩ := dottedIdentOk_destruct hg
      obtain ⟨f, rfl⟩ : ∃ f, fuel = f + 1 := ⟨fuel - 1, by omega⟩
      rw [List.cons_append, identTailOkF_dot, if_pos hc]
      rw [List.dropWhile_cons, identStart_word hc, if_pos rfl]
      have hdw : (r ++ w).dropWhile isWordChar =
          (r.dropWhile isWordChar ++ w).dropWhile isWordChar := by
        conv_lhs => rw [← List.takeWhile_append_dropWhile isWordChar r]
        rw [List.append_assoc,
          List.dropWhile_append_of_pos (fun x hx => List.mem_takeWhile_imp hx)]
      rw [hdw]
      simp only [List.length_cons] at hn hf
      rcases hrest with hnil | ⟨rest, hre, hrv⟩
      · rw [hnil, List.nil_append, all_ws_dropWhile_word hw]
        obtain ⟨f2, rfl⟩ : ∃ f2, f = f2 + 1 := ⟨f - 1, by omega⟩
        exact identTailOkF_ws hw
      · rw [hre, List.cons_append, List.dropWhile_cons]
        rw [show isWordChar '.' = false from by decide]
        simp only [Bool.false_eq_true, if_false]
        have hlen := len_dropWhile_le isWordChar r
        rw [hre] at hlen
        simp only [List.length_cons] at hlen
        exact ih rest w f (by omega) hrv hw (by omega)

theorem parseIdentWs_of_dotted {g w : List Char}
    (hg : dottedIdentOk g = true) (hw : w.all isPySpace = true) :
    parseIdentWs (g ++ w) = some g := by
  cases g with
  | nil => rw [dottedIdentOk] at hg; cases hg
  | cons c r =>
    obtain ⟨hc, hrest⟩ := dottedIdentOk_destruct hg
    rw [List.cons_append, parseIdentWs, if_pos hc]
    rw [List.dropWhile_cons, identStart_word hc, if_pos rfl]
    have hdw : (r ++ w).dropWhile isWordChar =
        (r.dropWhile isWordChar ++ w).dropWhile isWordChar := by
      conv_lhs => rw [← List.takeWhile_append_dropWhile isWordChar r]
      rw [List.append_assoc,
        List.dropWhile_append_of_pos (fun x hx => List.mem_takeWhile_imp hx)]
    have htw : identTailOk ((r ++ w).dropWhile isWordChar) = true := by
      rw [hdw]
      rcases hrest with hnil | ⟨rest, hre, hrv⟩
      · rw [hnil, List.nil_append, all_ws_dropWhile_word hw]
        unfold identTailOk
        exact identTailOkF_ws hw
      · rw [hre, List.cons_append, List.dropWhile_cons]
        rw [show isWordChar '.' = false from by decide]
        simp only [Bool.false_eq_true, if_false]
        unfold identTailOk
        apply identTailOkF_of_dotted rest.length rest w _ le_rfl hrv hw
        simp only [List.length_cons, List.length_append]
        omega
    rw [htw, if_pos rfl]
    have hall : ∀ x ∈ r, isWordDot x = true := by
      intro x hx
      exact dottedIdentOk_all_wordDot (c :: r).length (c :: r) le_rfl hg x
        (List.mem_cons_of_mem c hx)
    rw [List.takeWhile_cons, word_wordDot (identStart_word hc), if_pos rfl]
    rw [List.takeWhile_append_of_pos hall, all_ws_takeWhile_wordDot hw, List.append_nil]

theorem identTailOkF_sound :
    ∀ (fuel : Nat) (t : List Char), identTailOkF fuel t = true →
      (t.dropWhile isWordDot).all isPySpace = true ∧ tailOkShape (t.takeWhile isWordDot) := by
  intro fuel
  induction fuel with
  | zero => intro t h; simp [identTailOkF] at h
  | succ f ih =>
    intro t h
    unfold identTailOkF at h
    split at h
    · next c r =>
      by_cases hc : isIdentStart c = true
      · rw [if_pos hc] at h
        obtain ⟨ihw, ihs⟩ := ih _ h
        rw [List.dropWhile_cons, identStart_word hc, if_pos rfl] at ihw ihs
        constructor
        · rw [List.dropWhile_cons, show isWordDot '.' = true from by decide, if_pos rfl]
          rw [List.dropWhile_cons, word_wordDot (identStart_word hc), if_pos rfl]
          conv_lhs => rw [← List.takeWhile_append_dropWhile isWordChar r]
          rw [List.dropWhile_append_of_pos
            (fun x hx => word_wordDot (List.mem_takeWhile_imp hx))]
          exact ihw
        · have hwd : r.takeWhile isWordDot =
              r.takeWhile isWordChar ++ ((r.dropWhile isWordChar).takeWhile isWordDot) := by
            conv_lhs => rw [← List.takeWhile_append_dropWhile isWordChar r]
            rw [List.takeWhile_append_of_pos
              (fun x hx => word_wordDot (List.mem_takeWhile_imp hx))]
          rw [List.takeWhile_cons, show isWordDot '.' = true from by decide, if_pos rfl]
          rw [List.takeWhile_cons, word_wordDot (identStart_word hc), if_pos rfl]
          rw [hwd]
          refine Or.inr ⟨c :: (r.takeWhile isWordChar ++
            ((r.dropWhile isWordChar).takeWhile isWordDot)), rfl, ?_⟩
          exact dottedIdentOk_seg hc (fun x hx => List.mem_takeWhile_imp hx) ihs
      · rw [if_neg hc] at h; cases h
    · constructor
      · rw [all_ws_dropWhile_wordDot h]; exact h
      · rw [all_ws_takeWhile_wordDot h]; exact Or.inl rfl

theorem parseIdentWs_sound {s g : List Char} (h : parseIdentWs s = some g) :
    dottedIdentOk g = true ∧ ∃ w, s = g ++ w ∧ w.all isPySpace = true := by
  cases s with
  | nil => simp [parseIdentWs] at h
  | cons c r =>
    rw [parseIdentWs] at h
    split at h
    · next hc =>
      split at h
      · next ht =>
        simp only [Option.some.injEq] at h
        rw [List.dropWhile_cons, identStart_word hc, if_pos rfl] at ht
        unfold identTailOk at ht
        obtain ⟨hwsall, hshape⟩ := identTailOkF_sound _ _ ht
        have hr : r = r.takeWhile isWordChar ++ r.dropWhile isWordChar :=
          (List.takeWhile_append_dropWhile isWordChar r).symm
        have htk : (c :: r).takeWhile isWordDot =
            c :: (r.takeWhile isWordChar ++ ((r.dropWhile isWordChar).takeWhile isWordDot)) := by
          rw [List.takeWhile_cons, word_wordDot (identStart_word hc), if_pos rfl]
          conv_lhs => rw [hr]
          rw [List.takeWhile_append_of_pos
            (fun x hx => word_wordDot (List.mem_takeWhile_imp hx))]
        constructor
        · rw [← h, htk]
          exact dottedIdentOk_seg hc (fun x hx => List.mem_takeWhile_imp hx) hshape
        · refine ⟨(r.dropWhile isWordChar).dropWhile isWordDot, ?_, hwsall⟩
          rw [← h, htk]
          simp only [List.cons_append, List.cons.injEq, true_and]
          rw [List.append_assoc, List.takeWhile_append_dropWhile]
          exact hr
      · cases h
    · cases h

theorem dottedIdentOk_getLast (n : Nat) :
    ∀ g, g.length ≤ n → dottedIdentOk g = true →
      ∃ c, g.getLast? = some c ∧ isWordChar c = true := by
  induction n with
  | zero =>
    intro g hn hg
    cases g with
    | nil => rw [dottedIdentOk] at hg; cases hg
    | cons c r => simp at hn
  | succ n ih =>
    intro g hn hg
    cases g with
    | nil => rw [dottedIdentOk] at hg; cases hg
    | cons c r =>
      obtain ⟨hc, hrest⟩ := dottedIdentOk_destruct hg
      rcases hrest with hnil | ⟨rest, hre, hrv⟩
      · have hall : ∀ x ∈ c :: r, isWordChar x = true := by
          intro x hx
          rcases List.mem_cons.1 hx with rfl | hx
          · exact identStart_word hc
          · have := List.dropWhile_eq_nil_iff.1 hnil
            exact this x hx
        have hne : (c :: r) ≠ [] := by simp
        obtain ⟨cl, hcl⟩ := Option.isSome_iff_exists.1
          (by rw [List.getLast?_isSome]; exact hne)
        exact ⟨cl, hcl, hall cl (List.mem_of_mem_getLast? hcl)⟩
      · have hsplit : c :: r = (c :: (r.takeWhile isWordChar ++ ['.'])) ++ rest := by
          conv_lhs => rw [show r = r.takeWhile isWordChar ++ r.dropWhile isWordChar from
            (List.takeWhile_append_dropWhile isWordChar r).symm]
          rw [hre]
          simp
        have hrne : rest ≠ [] := by
          intro hcon
          rw [hcon, dottedIdentOk] at hrv
          cases hrv
        have hlen := len_dropWhile_le isWordChar r
        rw [hre] at hlen
        simp only [List.length_cons] at hlen hn
        obtain ⟨cl, hcl, hclw⟩ := ih rest (by omega) hrv
        refine ⟨cl, ?_, hclw⟩
        rw [hsplit, List.getLast?_append_of_ne_nil _ hrne]
        exact hcl

theorem pyRStrip_eq_self_of_last {g : List Char} {c : Char}
    (h : g.getLast? = some c) (hc : isPySpace c = false) : pyRStrip g = g := by
  unfold pyRStrip
  cases hrev : g.reverse with
  | nil =>
    have : g = [] := by
      have := congrArg List.reverse hrev
      simpa using this
    subst this
    cases h
  | cons x xs =>
    have hx : x = c := by
      have h1 : g.reverse.head? = g.getLast? := List.head?_reverse g
      rw [hrev, h] at h1
      simpa using h1
    subst hx
    rw [List.dropWhile_cons, hc]
    simp only [Bool.false_eq_true, if_false]
    rw [← hrev, List.reverse_reverse]

theorem pyRStrip_append_ws {a w : List Char} (hw : w.all isPySpace = true) :
    pyRStrip (a ++ w) = pyRStrip a := by
  unfold pyRStrip
  rw [List.reverse_append]
  rw [List.dropWhile_append_of_pos]
  intro x hx
  exact List.all_eq_true.1 hw x (by simpa using hx)

theorem pyRStrip_split (s : List Char) :
    ∃ w, s = pyRStrip s ++ w ∧ w.all isPySpace = true := by
  refine ⟨(s.reverse.takeWhile isPySpace).reverse, ?_, ?_⟩
  · unfold pyRStrip
    rw [← List.reverse_append, List.takeWhile_append_dropWhile, List.reverse_reverse]
  · rw [List.all_eq_true]
    intro x hx
    exact List.mem_takeWhile_imp (by simpa using hx)

theorem pyRStrip_cons (c : Char) (r : List Char) :
    (pyRStrip (c :: r) = [] ∧ pyRStrip r = []) ∨ pyRStrip (c :: r) = c :: pyRStrip r := by
  unfold pyRStrip
  rw [show (c :: r).reverse = r.reverse ++ [c] from by simp]
  by_cases hall : r.reverse.all isPySpace = true
  · have hdr : r.reverse.dropWhile isPySpace = [] :=
      List.dropWhile_eq_nil_iff.2 (List.all_eq_true.1 hall)
    rw [List.dropWhile_append_of_pos (List.all_eq_true.1 hall)]
    by_cases hc : isPySpace c = true
    · left
      rw [List.dropWhile_cons, hc, if_pos rfl, hdr]
      simp [List.dropWhile]
    · right
      rw [List.dropWhile_cons]
      rw [show isPySpace c = false from by revert hc; cases isPySpace c <;> simp]
      simp only [Bool.false_eq_true, if_false]
      rw [hdr]
      simp [List.dropWhile]
  · right
    rw [dropWhile_append_of_not_all _ _ (by revert hall; cases r.reverse.all isPySpace <;> simp)]
    rw [List.reverse_append]
    simp

theorem reSearch_eq_longestSuffix : ∀ (s : List Char),
    reSearchIdentWs s = longestDottedSuffix (pyRStrip s) := by
  intro s
  induction s with
  | nil => rfl
  | cons c r ih =>
    rw [reSearchIdentWs]
    cases hp : parseIdentWs (c :: r) with
    | some g =>
      obtain ⟨hg, w, hsw, hww⟩ := parseIdentWs_sound hp
      rw [hsw, pyRStrip_append_ws hww]
      obtain ⟨cl, hcl, hclw⟩ := dottedIdentOk_getLast g.length g le_rfl hg
      rw [pyRStrip_eq_self_of_last hcl (word_not_pySpace hclw)]
      cases g with
      | nil => rw [dottedIdentOk] at hg; cases hg
      | cons g0 g1 =>
        rw [longestDottedSuffix, hg]
        simp
    | none =>
      rcases pyRStrip_cons c r with ⟨h1, h2⟩ | h1
      · rw [h1, ih, h2]
      · rw [h1, longestDottedSuffix]
        have hno : dottedIdentOk (c :: pyRStrip r) = false := by
          by_contra hcon
          have hv : dottedIdentOk (c :: pyRStrip r) = true := by
            revert hcon; cases dottedIdentOk (c :: pyRStrip r) <;> simp
          obtain ⟨w, hsw, hww⟩ := pyRStrip_split r
          have hcontra := parseIdentWs_of_dotted (g := c :: pyRStrip r) (w := w) hv hww
          rw [List.cons_append, ← hsw] at hcontra
          rw [hcontra] at hp
          cases hp
        rw [hno]
        simp only [Bool.false_eq_true, if_false]
        exact ih

theorem closeScanO_open (r : List Char) (pos depth : Nat) :
    closeScanO ('(' :: r) pos depth = closeScanO r (pos + 1) (depth + 1) := by
  rw [closeScanO.eq_def]
  simp

theorem closeScanO_close_zero (r : List Char) (pos : Nat) :
    closeScanO (')' :: r) pos 0 = some pos := by
  rw [closeScanO.eq_def]
  simp

theorem closeScanO_close_succ (r : List Char) (pos d : Nat) :
    closeScanO (')' :: r) pos (d + 1) = closeScanO r (pos + 1) d := by
  rw [closeScanO.eq_def]
  simp

theorem closeScanO_other {c : Char} (hc1 : c ≠ '(') (hc2 : c ≠ ')')
    (r : List Char) (pos depth : Nat) :
    closeScanO (c :: r) pos depth = closeScanO r (pos + 1) depth := by
  rw [closeScanO.eq_def]
  dsimp only
  rw [if_neg hc1, if_neg hc2]

theorem fsbGo_mem (sql : List Char) :
    ∀ (rest : List Char) (i : Nat) (stck : List (Nat × Bool)) (acc : List (Nat × Nat)),
      rest = sql.drop i →
      (∀ k p b, stck.get? k = some (p, b) → b = is_function_call sql p) →
      ∀ st en,
        ((st, en) ∈ fsbGo sql rest i stck acc ↔
          (st, en) ∈ acc ∨
            (∃ k, stck.get? k = some (st, true) ∧ closeScanO rest i k = some en) ∨
            (i ≤ st ∧ sql.getD st ' ' = '(' ∧ is_function_call sql st = true ∧
              closeOf sql st = some en)) := by
  intro rest
  induction rest with
  | nil =>
    intro i stck acc hdrop hstk st en
    rw [fsbGo]
    constructor
    · exact Or.inl
    · rintro (h | ⟨k, hk, hc⟩ | ⟨hle, hpar, hfc, hclose⟩)
      · exact h
      · simp [closeScanO] at hc
      · exfalso
        have hlen : sql.length ≤ i := by
          by_contra hcon
          have hne : sql.drop i ≠ [] := by
            apply List.ne_nil_of_length_pos
            rw [List.length_drop]
            omega
          exact hne hdrop.symm
        have hst : st < sql.length := by
          by_contra hge
          rw [List.getD_eq_default] at hpar
          · exact absurd hpar (by decide)
          · omega
        omega
  | cons c r ih =>
    intro i stck acc hdrop hstk st en
    have hlen : i < sql.length := by
      by_contra hcon
      have hnil : sql.drop i = [] := List.drop_eq_nil_of_le (by omega)
      rw [hnil] at hdrop
      cases hdrop
    have hci : sql.getD i ' ' = c := by
      have h1 : (sql.drop i).head? = sql[i]? := List.head?_drop sql i
      rw [← hdrop] at h1
      simp only [List.head?_cons] at h1
      rw [List.getD_eq_getElem?_getD, ← h1]
      rfl
    have hr : r = sql.drop (i + 1) := by
      have h2 : List.drop (i + 1) sql = List.drop 1 (List.drop i sql) :=
        (List.drop_drop 1 i sql).symm
      rw [← hdrop] at h2
      simp only [List.drop_one, List.tail_cons] at h2
      exact h2.symm
    rw [fsbGo.eq_def]
    dsimp only
    by_cases hc1 : c = '('
    · subst hc1
      rw [if_pos rfl]
      have hstk2 : ∀ k p b,
          ((i, is_function_call sql i) :: stck).get? k = some (p, b) →
            b = is_function_call sql p := by
        intro k p b hk
        cases k with
        | zero =>
          simp only [List.get?_cons_zero, Option.some.injEq, Prod.mk.injEq] at hk
          rw [← hk.1, ← hk.2]
        | succ k =>
          simp only [List.get?_cons_succ] at hk
          exact hstk k p b hk
      rw [ih (i + 1) ((i, is_function_call sql i) :: stck) acc hr hstk2 st en]
      constructor
      · rintro (h | ⟨k, hk, hcl⟩ | ⟨h1, h2, h3, h4⟩)
        · exact Or.inl h
        · cases k with
          | zero =>
            simp only [List.get?_cons_zero, Option.some.injEq, Prod.mk.injEq] at hk
            refine Or.inr (Or.inr ⟨hk.1 ▸ le_rfl, ?_, ?_, ?_⟩)
            · rw [← hk.1]; exact hci
            · rw [← hk.1, ← hk.2]
            · rw [← hk.1]
              unfold closeOf
              rw [← hr]
              exact hcl
          | succ k =>
            simp only [List.get?_cons_succ] at hk
            refine Or.inr (Or.inl ⟨k, hk, ?_⟩)
            rw [closeScanO_open]
            exact hcl
        · exact Or.inr (Or.inr ⟨by omega, h2, h3, h4⟩)
      · rintro (h | ⟨k, hk, hcl⟩ | ⟨h1, h2, h3, h4⟩)
        · exact Or.inl h
        · refine Or.inr (Or.inl ⟨k + 1, by simpa using hk, ?_⟩)
          rw [closeScanO_open] at hcl
          exact hcl
        · rcases Nat.eq_or_lt_of_le h1 with heq | hlt
          · refine Or.inr (Or.inl ⟨0, ?_, ?_⟩)
            · simp only [List.get?_cons_zero, Option.some.injEq, Prod.mk.injEq]
              refine ⟨heq, ?_⟩
              rw [heq]
              exact h3
            · unfold closeOf at h4
              rw [← heq, ← hr] at h4
              exact h4
          · exact Or.inr (Or.inr ⟨by omega, h2, h3, h4⟩)
    · by_cases hc2 : c = ')'
      · subst hc2
        rw [if_neg (by decide), if_pos rfl]
        cases stck with
        | nil =>
          rw [ih (i + 1) [] acc hr (by intro k p b hk; simp at hk) st en]
          constructor
          · rintro (h | ⟨k, hk, hcl⟩ | ⟨h1, h2, h3, h4⟩)
            · exact Or.inl h
            · simp at hk
            · exact Or.inr (Or.inr ⟨by omega, h2, h3, h4⟩)
          · rintro (h | ⟨k, hk, hcl⟩ | ⟨h1, h2, h3, h4⟩)
            · exact Or.inl h
            · simp at hk
            · rcases Nat.eq_or_lt_of_le h1 with heq | hlt
              · exfalso
                rw [← heq, hci] at h2
                exact absurd h2 (by decide)
              · exact Or.inr (Or.inr ⟨by omega, h2, h3, h4⟩)
        | cons top stck' =>
          obtain ⟨p, b⟩ := top
          have hb : b = is_function_call sql p := hstk 0 p b (by simp)
          have hstk2 : ∀ k q b2, stck'.get? k = some (q, b2) →
              b2 = is_function_call sql q := by
            intro k q b2 hk
            exact hstk (k + 1) q b2 (by simpa using hk)
          rw [ih (i + 1) stck' (if b then acc ++ [(p, i)] else acc) hr hstk2 st en]
          constructor
          · rintro (h | ⟨k, hk, hcl⟩ | ⟨h1, h2, h3, h4⟩)
            · by_cases hbv : b = true
              · rw [if_pos hbv] at h
                rcases List.mem_append.1 h with h | h
                · exact Or.inl h
                · simp only [List.mem_singleton, Prod.mk.injEq] at h
                  refine Or.inr (Or.inl ⟨0, ?_, ?_⟩)
                  · simp only [List.get?_cons_zero, Option.some.injEq, Prod.mk.injEq]
                    exact ⟨h.1.symm, hbv⟩
                  · rw [closeScanO_close_zero, h.2]
              · rw [if_neg hbv] at h
                exact Or.inl h
            · refine Or.inr (Or.inl ⟨k + 1, by simpa using hk, ?_⟩)
              rw [closeScanO_close_succ]
              exact hcl
            · exact Or.inr (Or.inr ⟨by omega, h2, h3, h4⟩)
          · rintro (h | ⟨k, hk, hcl⟩ | ⟨h1, h2, h3, h4⟩)
            · refine Or.inl ?_
              by_cases hbv : b = true
              · rw [if_pos hbv]
                exact List.mem_append.2 (Or.inl h)
              · rw [if_neg hbv]
                exact h
            · cases k with
              | zero =>
                simp only [List.get?_cons_zero, Option.some.injEq, Prod.mk.injEq] at hk
                rw [closeScanO_close_zero] at hcl
                simp only [Option.some.injEq] at hcl
                refine Or.inl ?_
                rw [if_pos hk.2]
                refine List.mem_append.2 (Or.inr ?_)
                simp only [List.mem_singleton, Prod.mk.injEq]
                exact ⟨hk.1.symm, hcl.symm⟩
              | succ k =>
                simp only [List.get?_cons_succ] at hk
                refine Or.inr (Or.inl ⟨k, hk, ?_⟩)
                rw [closeScanO_close_succ] at hcl
                exact hcl
            · rcases Nat.eq_or_lt_of_le h1 with heq | hlt
              · exfalso
                rw [← heq, hci] at h2
                exact absurd h2 (by decide)
              · exact Or.inr (Or.inr ⟨by omega, h2, h3, h4⟩)
      · rw [if_neg hc1, if_neg hc2]
        rw [ih (i + 1) stck acc hr hstk st en]
        constructor
        · rintro (h | ⟨k, hk, hcl⟩ | ⟨h1, h2, h3, h4⟩)
          · exact Or.inl h
          · refine Or.inr (Or.inl ⟨k, hk, ?_⟩)
            rw [closeScanO_other hc1 hc2]
            exact hcl
          · exact Or.inr (Or.inr ⟨by omega, h2, h3, h4⟩)
        · rintro (h | ⟨k, hk, hcl⟩ | ⟨h1, h2, h3, h4⟩)
          · exact Or.inl h
          · refine Or.inr (Or.inl ⟨k, hk, ?_⟩)
            rw [closeScanO_other hc1 hc2] at hcl
            exact hcl
          · rcases Nat.eq_or_lt_of_le h1 with heq | hlt
            · exfalso
              rw [← heq, hci] at h2
              exact hc1 h2
            · exact Or.inr (Or.inr ⟨by omega, h2, h3, h4⟩)

theorem mem_find_sql_blocks (sql : List Char) (st en : Nat) :
    ((st, en) ∈ find_sql_blocks sql ↔
      sql.getD st ' ' = '(' ∧ is_function_call sql st = true ∧
        closeOf sql st = some en) := by
  unfold find_sql_blocks
  rw [fsbGo_mem sql sql 0 [] [] (by simp) (by intro k p b hk; simp at hk) st en]
  constructor
  · rintro (h | ⟨k, hk, _⟩ | ⟨_, h2, h3, h4⟩)
    · simp at h
    · simp at hk
    · exact ⟨h2, h3, h4⟩
  · rintro ⟨h2, h3, h4⟩
    exact Or.inr (Or.inr ⟨Nat.zero_le st, h2, h3, h4⟩)

theorem bool_eq_of_true_iff {a b : Bool} (h : a = true ↔ b = true) : a = b := by
  cases a <;> cases b <;> simp_all

theorem in_block_eq_spec (sql : List Char) (idx : Nat) :
    in_block idx (find_sql_blocks sql) = isFnSpanIdx sql idx := by
  apply bool_eq_of_true_iff
  unfold in_block isFnSpanIdx
  rw [List.any_eq_true, List.any_eq_true]
  constructor
  · rintro ⟨⟨st, en⟩, hmem, hin⟩
    obtain ⟨h2, h3, h4⟩ := (mem_find_sql_blocks sql st en).1 hmem
    have hst : st < sql.length := by
      by_contra hge
      rw [List.getD_eq_default] at h2
      · exact absurd h2 (by decide)
      · omega
    refine ⟨st, List.mem_range.2 hst, ?_⟩
    simp only [Bool.and_eq_true, decide_eq_true_eq] at hin ⊢
    rw [h4]
    simp only [Bool.and_eq_true, decide_eq_true_eq]
    exact ⟨⟨h2, h3⟩, hin⟩
  · rintro ⟨st, hmem, hin⟩
    simp only [Bool.and_eq_true, decide_eq_true_eq] at hin
    obtain ⟨⟨h2, h3⟩, hrest⟩ := hin
    cases h4 : closeOf sql st with
    | none => rw [h4] at hrest; cases hrest
    | some en =>
      rw [h4] at hrest
      simp only [Bool.and_eq_true, decide_eq_true_eq] at hrest
      refine ⟨(st, en), (mem_find_sql_blocks sql st en).2 ⟨h2, h3, h4⟩, ?_⟩
      simp only [Bool.and_eq_true, decide_eq_true_eq]
      exact hrest

theorem commaGo_congr (blocks : List (Nat × Nat)) (inb : Nat → Bool)
    (h : ∀ i, in_block i blocks = inb i) :
    ∀ (fuel : Nat) (s : List Char) (pos : Nat),
      fscGo blocks fuel s pos = commaSpecGo inb fuel s pos := by
  intro fuel
  induction fuel with
  | zero => intro s pos; rfl
  | succ f ih =>
    intro s pos
    cases s with
    | nil => rfl
    | cons c r =>
      rw [fscGo, commaSpecGo]
      by_cases hcond : ((c :: r).dropWhile isPySpace).head? = some ','
      · rw [if_pos hcond, if_pos hcond]
        simp only [h, ih]
      · rw [if_neg hcond, if_neg hcond, ih]

/-! replaceSub machinery -/

theorem replaceSubF_succ (pat rep : List Char) (fuel : Nat) (s : List Char) :
    replaceSubF pat rep (fuel + 1) s =
      if pat ≠ [] ∧ pat.isPrefixOf s then
        rep ++ replaceSubF pat rep fuel (s.drop pat.length)
      else
        match s with
        | [] => []
        | c :: r => c :: replaceSubF pat rep fuel r := by
  rw [replaceSubF.eq_def]

theorem replaceSubF_fuel {pat rep : List Char} (hp : pat ≠ []) :
    ∀ (f1 : Nat) (s : List Char) (f2 : Nat), s.length < f1 → s.length < f2 →
      replaceSubF pat rep f1 s = replaceSubF pat rep f2 s := by
  intro f1
  induction f1 with
  | zero => intro s f2 h1 h2; omega
  | succ f1 ih =>
    intro s f2 h1 h2
    obtain ⟨f2', rfl⟩ : ∃ f2', f2 = f2' + 1 := ⟨f2 - 1, by omega⟩
    rw [replaceSubF_succ, replaceSubF_succ]
    by_cases hc : pat ≠ [] ∧ pat.isPrefixOf s
    · rw [if_pos hc, if_pos hc]
      have hpl : 1 ≤ pat.length := by
        cases pat with
        | nil => exact absurd rfl hp
        | cons a b => simp
      have hple : pat.length ≤ s.length := (List.isPrefixOf_iff_prefix.1 hc.2).length_le
      have hlen : (s.drop pat.length).length < f1 ∧ (s.drop pat.length).length < f2' := by
        rw [List.length_drop]
        constructor <;> omega
      rw [ih _ f2' hlen.1 hlen.2]
    · rw [if_neg hc, if_neg hc]
      cases s with
      | nil => rfl
      | cons c r =>
        dsimp only
        simp only [List.length_cons] at h1 h2
        rw [ih r f2' (by omega) (by omega)]

theorem replaceSub_skip1 {pat rep : List Char} (hp : pat ≠ []) {c : Char} {r : List Char}
    (h : ¬ pat.isPrefixOf (c :: r)) :
    replaceSub pat rep (c :: r) = c :: replaceSub pat rep r := by
  unfold replaceSub
  simp only [List.length_cons]
  rw [replaceSubF_succ, if_neg (by tauto)]

theorem replaceSub_hit {pat rep : List Char} (hp : pat ≠ []) (b : List Char) :
    replaceSub pat rep (pat ++ b) = rep ++ replaceSub pat rep b := by
  unfold replaceSub
  have hsp : (pat ++ b).length = (pat ++ b).length - 1 + 1 := by
    have : 1 ≤ pat.length := by
      cases pat with
      | nil => exact absurd rfl hp
      | cons a b => simp
    rw [List.length_append]
    omega
  rw [hsp, replaceSubF_succ,
    if_pos ⟨hp, List.isPrefixOf_iff_prefix.2 (List.prefix_append pat b)⟩]
  rw [List.drop_left]
  have hlp : 1 ≤ pat.length := by
    cases pat with
    | nil => exact absurd rfl hp
    | cons a b => simp
  rw [replaceSubF_fuel hp _ b (b.length + 1) (by rw [List.length_append]; omega)
    (by omega)]

theorem replaceSub_noocc {pat rep : List Char} :
    ∀ {s : List Char}, ¬ (pat <:+: s) → replaceSub pat rep s = s := by
  have hF : ∀ (fuel : Nat) (s : List Char), ¬ (pat <:+: s) →
      replaceSubF pat rep fuel s = s := by
    intro fuel
    induction fuel with
    | zero => intro s h; rfl
    | succ fuel ih =>
      intro s h
      have hni : ¬ (pat ≠ [] ∧ pat.isPrefixOf s) := by
        rintro ⟨hne, hpre⟩
        exact h ((List.isPrefixOf_iff_prefix.1 hpre).isInfix)
      rw [replaceSubF_succ, if_neg hni]
      cases s with
      | nil => rfl
      | cons c r =>
        dsimp only
        rw [ih r fun hinf => h (List.infix_cons_iff.2 (Or.inr hinf))]
  intro s h
  exact hF _ s h

theorem replaceSub_skipA {pat rep : List Char} (hp : pat ≠ []) :
    ∀ {A : List Char} (b : List Char),
      (∀ suf, suf <:+ A → suf ≠ [] → ¬ pat.isPrefixOf (suf ++ b)) →
      replaceSub pat rep (A ++ b) = A ++ replaceSub pat rep b := by
  intro A
  induction A with
  | nil => intro b h; rfl
  | cons a0 A' ih =>
    intro b h
    have h1 : ¬ pat.isPrefixOf (a0 :: (A' ++ b)) := by
      have := h (a0 :: A') List.suffix_rfl (by simp)
      simpa using this
    have h2 : ∀ suf, suf <:+ A' → suf ≠ [] → ¬ pat.isPrefixOf (suf ++ b) := by
      intro suf hsuf hne
      exact h suf (hsuf.trans (List.suffix_cons a0 A')) hne
    rw [List.cons_append, replaceSub_skip1 hp h1, ih b h2, List.cons_append]

/-! generic first-occurrence alignment -/

theorem firstOcc (p : Char → Bool) :
    ∀ (a : List Char) (b : List Char) (x0 y0 : Char) (x y : List Char),
      (∀ c ∈ a, p c = false) → (∀ c ∈ b, p c = false) →
      p x0 = true → p y0 = true →
      a ++ x0 :: x = b ++ y0 :: y → a = b ∧ x0 = y0 ∧ x = y := by
  intro a
  induction a with
  | nil =>
    intro b x0 y0 x y ha hb hx hy heq
    cases b with
    | nil =>
      simp only [List.nil_append] at heq
      cases heq
      exact ⟨rfl, rfl, rfl⟩
    | cons b0 b' =>
      exfalso
      simp only [List.nil_append, List.cons_append, List.cons.injEq] at heq
      have h2 := hb b0 (List.mem_cons_self b0 b')
      rw [← heq.1, hx] at h2
      simp at h2
  | cons a0 a' ih =>
    intro b x0 y0 x y ha hb hx hy heq
    cases b with
    | nil =>
      exfalso
      simp only [List.nil_append, List.cons_append, List.cons.injEq] at heq
      have h2 := ha a0 (List.mem_cons_self a0 a')
      rw [heq.1, hy] at h2
      simp at h2
    | cons b0 b' =>
      simp only [List.cons_append, List.cons.injEq] at heq
      obtain ⟨h0, hrest⟩ := heq
      obtain ⟨h1, h2, h3⟩ := ih b' x0 y0 x y
        (fun c hc => ha c (List.mem_cons_of_mem a0 hc))
        (fun c hc => hb c (List.mem_cons_of_mem b0 hc)) hx hy hrest
      exact ⟨by rw [h0, h1], h2, h3⟩

/-! character and string facts -/

theorem ph_no_underscore : ∀ c ∈ str "PLACEHOLDER", c ≠ '_' := by decide

theorem label_no_P : ∀ l ∈ LABELS, 'P' ∉ l := by decide

theorem label_no_digit : ∀ l ∈ LABELS, ∀ c ∈ l, isAsciiDigit c = false := by decide

theorem digit_ne_P {c : Char} (h : isAsciiDigit c = true) : c ≠ 'P' := by
  intro hc
  subst hc
  simp [isAsciiDigit] at h

theorem digit_ne_underscore {c : Char} (h : isAsciiDigit c = true) : c ≠ '_' := by
  intro hc
  subst hc
  simp [isAsciiDigit] at h

theorem natDigitsF_digits :
    ∀ (fuel n : Nat), ∀ c ∈ natDigitsF fuel n, isAsciiDigit c = true := by
  intro fuel
  induction fuel with
  | zero => intro n c hc; cases hc
  | succ fuel ih =>
    intro n c hc
    rw [natDigitsF] at hc
    split at hc
    · next h =>
      simp only [List.mem_singleton] at hc
      subst hc
      interval_cases n <;> decide
    · rcases List.mem_append.1 hc with hc | hc
      · exact ih _ c hc
      · simp only [List.mem_singleton] at hc
        subst hc
        have h10 : n % 10 < 10 := Nat.mod_lt _ (by omega)
        set k := n % 10 with hk
        interval_cases k <;> decide

theorem pad4_digits (n : Nat) : ∀ c ∈ pad4 n, isAsciiDigit c = true := by
  intro c hc
  unfold pad4 at hc
  rcases List.mem_append.1 hc with hc | hc
  · have : c = '0' := List.eq_of_mem_replicate hc
    subst this
    decide
  · exact natDigitsF_digits _ _ c hc

theorem natDigitsF_ne_nil (fuel n : Nat) (h : 1 ≤ fuel) : natDigitsF fuel n ≠ [] := by
  obtain ⟨f, rfl⟩ : ∃ f, fuel = f + 1 := ⟨fuel - 1, by omega⟩
  rw [natDigitsF]
  split
  · simp
  · simp

theorem pad4_ne_nil (n : Nat) : pad4 n ≠ [] := by
  show List.replicate (4 - (natDigits n).length) '0' ++ natDigits n ≠ []
  intro h
  rw [List.append_eq_nil] at h
  have h2 := h.2
  unfold natDigits at h2
  exact natDigitsF_ne_nil (n + 1) n (by omega) h2

/-! digit values -/

theorem digitsVal_append_one (xs : List Char) (c : Char) :
    digitsVal (xs ++ [c]) = 10 * digitsVal xs + (c.toNat - 48) := by
  unfold digitsVal
  rw [List.foldl_append]
  rfl

theorem digitsVal_natDigitsF :
    ∀ (fuel n : Nat), n < fuel → digitsVal (natDigitsF fuel n) = n := by
  intro fuel
  induction fuel with
  | zero => intro n h; omega
  | succ fuel ih =>
    intro n h
    rw [natDigitsF]
    split
    · next h10 =>
      show digitsVal [Char.ofNat (48 + n)] = n
      interval_cases n <;> decide
    · next h10 =>
      rw [digitsVal_append_one]
      have hdiv : n / 10 < fuel := by
        have hlt : n / 10 < n := Nat.div_lt_self (by omega) (by omega)
        omega
      rw [ih _ hdiv]
      have h10' : n % 10 < 10 := Nat.mod_lt _ (by omega)
      have hch : (Char.ofNat (48 + n % 10)).toNat - 48 = n % 10 := by
        set k := n % 10 with hk
        interval_cases k <;> decide
      rw [hch]
      omega

theorem digitsVal_pad4 (n : Nat) : digitsVal (pad4 n) = n := by
  unfold pad4
  have hz : ∀ (z : Nat), List.foldl (fun acc c => 10 * acc + (c.toNat - 48)) 0
      (List.replicate z '0') = 0 := by
    intro z
    induction z with
    | zero => rfl
    | succ z ih =>
      rw [List.replicate_succ, List.foldl_cons]
      show List.foldl _ (10 * 0 + ('0'.toNat - 48)) _ = 0
      simpa using ih
  show digitsVal _ = n
  unfold digitsVal
  rw [List.foldl_append, hz]
  have := digitsVal_natDigitsF (n + 1) n (by omega)
  unfold natDigits at this ⊢
  exact this

theorem pad4_inj {a b : Nat} (h : pad4 a = pad4 b) : a = b := by
  have ha := digitsVal_pad4 a
  have hb := digitsVal_pad4 b
  rw [h] at ha
  omega

/-! chunk-list structure -/

theorem protCount_append (X Y : List Chunk) :
    protCount (X ++ Y) = protCount X + protCount Y := by
  induction X with
  | nil => simp [protCount]
  | cons c r ih =>
    cases c with
    | raw c0 => simp only [List.cons_append, protCount, List.append_eq, ih]
    | prot l m => simp only [List.cons_append, protCount, List.append_eq, ih]; omega

theorem origChunks_append (X Y : List Chunk) :
    origChunks (X ++ Y) = origChunks X ++ origChunks Y := by
  induction X with
  | nil => rfl
  | cons c r ih =>
    cases c with
    | raw c0 => simp only [List.cons_append, origChunks, List.append_eq, ih]
    | prot l m => simp only [List.cons_append, origChunks, List.append_eq, ih, List.append_assoc]

theorem renderChunks_append (X Y : List Chunk) :
    ∀ n, renderChunks (X ++ Y) n = renderChunks X n ++ renderChunks Y (n + protCount X) := by
  induction X with
  | nil => intro n; simp [renderChunks, protCount]
  | cons c r ih =>
    intro n
    cases c with
    | raw c0 =>
      simp only [List.cons_append, renderChunks, protCount, List.append_eq, ih]
    | prot l m =>
      simp only [List.cons_append, renderChunks, protCount, List.append_eq, ih, List.append_assoc]
      rw [show n + (protCount r + 1) = n + 1 + protCount r from by omega]

theorem tableChunks_append (X Y : List Chunk) :
    ∀ n, tableChunks (X ++ Y) n = tableChunks X n ++ tableChunks Y (n + protCount X) := by
  induction X with
  | nil => intro n; simp [tableChunks, protCount]
  | cons c r ih =>
    intro n
    cases c with
    | raw c0 => simp only [List.cons_append, tableChunks, protCount, List.append_eq, ih]
    | prot l m =>
      simp only [List.cons_append, tableChunks, protCount, List.append_eq, ih, List.cons.injEq, true_and]
      rw [show n + (protCount r + 1) = n + 1 + protCount r from by omega]

theorem renderChunks_rawmap (s : List Char) : ∀ n, renderChunks (s.map Chunk.raw) n = s := by
  induction s with
  | nil => intro n; rfl
  | cons c r ih => intro n; simp only [List.map_cons, renderChunks, ih]

theorem origChunks_rawmap (s : List Char) : origChunks (s.map Chunk.raw) = s := by
  induction s with
  | nil => rfl
  | cons c r ih => simp only [List.map_cons, origChunks, ih]

theorem tableChunks_rawmap (s : List Char) : ∀ n, tableChunks (s.map Chunk.raw) n = [] := by
  induction s with
  | nil => intro n; rfl
  | cons c r ih => intro n; simp only [List.map_cons, tableChunks, ih]

theorem protCount_rawmap (s : List Char) : protCount (s.map Chunk.raw) = 0 := by
  induction s with
  | nil => rfl
  | cons c r ih => simp only [List.map_cons, protCount, ih]

theorem mkKey_ne_nil (l : List Char) (n : Nat) : mkKey l n ≠ [] := by
  unfold mkKey
  simp [str]

theorem renderChunks_nil_iff {cs : List Chunk} {n : Nat}
    (h : renderChunks cs n = []) : cs = [] := by
  cases cs with
  | nil => rfl
  | cons c r =>
    cases c with
    | raw c0 => simp [renderChunks] at h
    | prot l m =>
      rw [renderChunks, List.append_eq_nil] at h
      exact absurd h.1 (mkKey_ne_nil l n)

theorem renderChunks_noprot {cs : List Chunk} (h : protCount cs = 0) :
    ∀ n, renderChunks cs n = origChunks cs := by
  induction cs with
  | nil => intro n; rfl
  | cons c r ih =>
    intro n
    cases c with
    | raw c0 =>
      rw [protCount] at h
      rw [renderChunks, origChunks, ih h]
    | prot l m => rw [protCount] at h; omega

theorem tableChunks_noprot {cs : List Chunk} (h : protCount cs = 0) :
    ∀ n, tableChunks cs n = [] := by
  induction cs with
  | nil => intro n; rfl
  | cons c r ih =>
    intro n
    cases c with
    | raw c0 =>
      rw [protCount] at h
      rw [tableChunks, ih h]
    | prot l m => rw [protCount] at h; omega

theorem firstSplit {cs : List Chunk} (h : protCount cs ≠ 0) :
    ∃ C1 l m C2, cs = C1 ++ Chunk.prot l m :: C2 ∧ protCount C1 = 0 := by
  induction cs with
  | nil => rw [protCount] at h; omega
  | cons c r ih =>
    cases c with
    | raw c0 =>
      rw [protCount] at h
      obtain ⟨C1, l, m, C2, heq, hc⟩ := ih h
      exact ⟨Chunk.raw c0 :: C1, l, m, C2, by rw [heq]; rfl, by rw [protCount]; exact hc⟩
    | prot l m =>
      exact ⟨[], l, m, r, rfl, rfl⟩

theorem chunksWF_append_right {X Y : List Chunk} (h : chunksWF (X ++ Y)) : chunksWF Y := by
  intro l m hm
  exact h l m (List.mem_append.2 (Or.inr hm))

theorem chunksWF_of_suffix {X Y : List Chunk} (h : chunksWF X) (hs : Y <:+ X) : chunksWF Y := by
  intro l m hm
  exact h l m (hs.subset hm)

theorem chunksWF_rawmap_append {s : List Char} {Y : List Chunk} (h : chunksWF Y) :
    chunksWF (s.map Chunk.raw ++ Y) := by
  intro l m hm
  rcases List.mem_append.1 hm with hm | hm
  · obtain ⟨c, _, hc⟩ := List.mem_map.1 hm
    cases hc
  · exact h l m hm

/-! `mkKey` structure facts -/

theorem mkKey_eq_parts (l : List Char) (n : Nat) :
    mkKey l n = str "__" ++ str "PLACEHOLDER" ++
      ('_' :: (l ++ '_' :: (pad4 n ++ '_' :: ('_' :: [])))) := by
  unfold mkKey
  show str "__PLACEHOLDER_" ++ l ++ '_' :: pad4 n ++ str "__" = _
  have h1 : str "__PLACEHOLDER_" = str "__" ++ str "PLACEHOLDER" ++ ['_'] := by decide
  rw [h1]
  have h2 : str "__" = ['_', '_'] := by decide
  rw [h2]
  simp [List.append_assoc]

theorem mkKey_count_P (l : List Char) (hl : l ∈ LABELS) (n : Nat) :
    List.count 'P' (mkKey l n) = 1 := by
  rw [mkKey_eq_parts]
  rw [List.count_append, List.count_append]
  have hc1 : List.count 'P' (str "__") = 0 := by decide
  have hc2 : List.count 'P' (str "PLACEHOLDER") = 1 := by decide
  have hc3 : List.count 'P' ('_' :: (l ++ '_' :: (pad4 n ++ '_' :: ('_' :: [])))) = 0 := by
    rw [List.count_cons_of_ne (by decide), List.count_append,
      List.count_cons_of_ne (by decide), List.count_append,
      List.count_cons_of_ne (by decide), List.count_cons_of_ne (by decide)]
    rw [List.count_eq_zero.2 (label_no_P l hl)]
    rw [List.count_eq_zero.2 (fun h => digit_ne_P (pad4_digits n 'P' h) rfl)]
    rfl
  rw [hc1, hc2, hc3]

theorem mkKey_getLast (l : List Char) (n : Nat) :
    (mkKey l n).getLast? = some '_' := by
  rw [mkKey_eq_parts]
  rw [List.getLast?_append_of_ne_nil _ (by simp)]
  rw [show ('_' :: (l ++ '_' :: (pad4 n ++ '_' :: ('_' :: [])))) =
    ('_' :: (l ++ '_' :: (pad4 n ++ ['_']))) ++ ['_'] from by simp]
  rw [List.getLast?_append_of_ne_nil _ (by simp)]
  rfl

theorem ph_head_P : str "PLACEHOLDER" = 'P' :: str "LACEHOLDER" := by decide

theorem lace_count_P : List.count 'P' (str "__") = 0 ∧ 'P' ∉ str "__" := by decide

theorem keyArg {l l' : List Char} (hl : l ∈ LABELS) (hl' : l' ∈ LABELS) {a b : Nat}
    {X Y : List Char}
    (h : l ++ '_' :: (pad4 a ++ '_' :: X) = l' ++ '_' :: (pad4 b ++ '_' :: Y)) :
    l = l' ∧ a = b ∧ X = Y := by
  obtain ⟨d0, ds, hd⟩ : ∃ d0 ds, pad4 a = d0 :: ds := by
    cases hp : pad4 a with
    | nil => exact absurd hp (pad4_ne_nil a)
    | cons d0 ds => exact ⟨d0, ds, rfl⟩
  obtain ⟨e0, es, he⟩ : ∃ e0 es, pad4 b = e0 :: es := by
    cases hp : pad4 b with
    | nil => exact absurd hp (pad4_ne_nil b)
    | cons e0 es => exact ⟨e0, es, rfl⟩
  rw [hd, he, List.cons_append, List.cons_append] at h
  have h2 : (l ++ ['_']) ++ (d0 :: (ds ++ '_' :: X)) =
      (l' ++ ['_']) ++ (e0 :: (es ++ '_' :: Y)) := by
    rw [List.append_assoc, List.append_assoc, List.singleton_append, List.singleton_append]
    exact h
  have hfree : ∀ (L : List Char), L ∈ LABELS → ∀ c ∈ L ++ ['_'], isAsciiDigit c = false := by
    intro L hL c hc
    rcases List.mem_append.1 hc with hc | hc
    · exact label_no_digit L hL c hc
    · rw [List.mem_singleton] at hc
      subst hc
      decide
  have hd0 : isAsciiDigit d0 = true := pad4_digits a d0 (by rw [hd]; exact List.mem_cons_self _ _)
  have he0 : isAsciiDigit e0 = true := pad4_digits b e0 (by rw [he]; exact List.mem_cons_self _ _)
  obtain ⟨hll, hde, hrest⟩ := firstOcc isAsciiDigit (l ++ ['_']) (l' ++ ['_']) d0 e0
    (ds ++ '_' :: X) (es ++ '_' :: Y) (hfree l hl) (hfree l' hl') hd0 he0 h2
  have hleq : l = l' := List.append_cancel_right hll
  have hdsdig : ∀ c ∈ ds, (!isAsciiDigit c) = false := by
    intro c hc
    rw [pad4_digits a c (by rw [hd]; exact List.mem_cons_of_mem _ hc)]
    rfl
  have hesdig : ∀ c ∈ es, (!isAsciiDigit c) = false := by
    intro c hc
    rw [pad4_digits b c (by rw [he]; exact List.mem_cons_of_mem _ hc)]
    rfl
  obtain ⟨hds, _, hXY⟩ := firstOcc (fun c => !isAsciiDigit c) ds es '_' '_' X Y
    hdsdig hesdig (by decide) (by decide) hrest
  have hab : a = b := by
    apply pad4_inj
    rw [hd, he, hde, hds]
  exact ⟨hleq, hab, hXY⟩

theorem mkKey_cons (l : List Char) (n : Nat) :
    mkKey l n = '_' :: ('_' :: (str "PLACEHOLDER" ++
      ('_' :: (l ++ '_' :: (pad4 n ++ '_' :: ('_' :: [])))))) := by
  rw [mkKey_eq_parts]
  rfl

theorem word_prefix :
    ∀ (cs : List Chunk) (n : Nat) (w V : List Char),
      (∀ c ∈ w, c ≠ '_') → renderChunks cs n = w ++ V → w <+: origChunks cs := by
  intro cs
  induction cs with
  | nil =>
    intro n w V hw h
    rw [renderChunks] at h
    cases w with
    | nil => exact List.nil_prefix
    | cons w0 w' => simp at h
  | cons c r ih =>
    intro n w V hw h
    cases c with
    | raw c0 =>
      rw [renderChunks] at h
      cases w with
      | nil => exact List.nil_prefix
      | cons w0 w' =>
        rw [List.cons_append] at h
        injection h with h0 h1
        rw [origChunks, ← h0]
        exact List.cons_prefix_cons.2
          ⟨rfl, ih n w' V (fun c hc => hw c (List.mem_cons_of_mem w0 hc)) h1⟩
    | prot l m =>
      cases w with
      | nil => exact List.nil_prefix
      | cons w0 w' =>
        exfalso
        rw [renderChunks, mkKey_cons, List.cons_append, List.cons_append] at h
        injection h with h0 h1
        exact hw w0 (List.mem_cons_self _ _) h0.symm

theorem ph_decomp :
    ∀ (cs : List Chunk) (n : Nat) (U V : List Char),
      ¬ (str "PLACEHOLDER" <:+: origChunks cs) →
      chunksWF cs →
      renderChunks cs n = U ++ str "PLACEHOLDER" ++ V →
      ∃ C1 l m C2, cs = C1 ++ Chunk.prot l m :: C2 ∧
        U = renderChunks C1 n ++ str "__" ∧
        V = '_' :: (l ++ '_' :: (pad4 (n + protCount C1) ++ '_' ::
          ('_' :: renderChunks C2 (n + protCount C1 + 1)))) := by
  intro cs
  induction cs with
  | nil =>
    intro n U V hclean hwf h
    rw [renderChunks] at h
    exfalso
    have hlen := congrArg List.length h
    simp [str] at hlen
    omega
  | cons c r ih =>
    intro n U V hclean hwf h
    cases c with
    | raw c0 =>
      rw [renderChunks] at h
      cases U with
      | nil =>
        exfalso
        rw [List.nil_append, ph_head_P, List.cons_append] at h
        injection h with h0 h1
        have hpre := word_prefix r n (str "LACEHOLDER") V (by decide) h1
        apply hclean
        rw [origChunks]
        refine List.IsPrefix.isInfix ?_
        rw [ph_head_P]
        exact List.cons_prefix_cons.2 ⟨h0.symm, hpre⟩
      | cons u0 U' =>
        simp only [List.cons_append] at h
        injection h with h0 h1
        have hclean' : ¬ str "PLACEHOLDER" <:+: origChunks r := by
          intro hinf
          apply hclean
          rw [origChunks]
          exact List.infix_cons_iff.2 (Or.inr hinf)
        have hwf' : chunksWF r := fun l2 m2 hm => hwf l2 m2 (List.mem_cons_of_mem _ hm)
        obtain ⟨C1, l, m, C2, hsplit, hU, hV⟩ := ih n U' V hclean' hwf' h1
        refine ⟨Chunk.raw c0 :: C1, l, m, C2, ?_, ?_, ?_⟩
        · rw [hsplit]; rfl
        · rw [renderChunks, ← h0, hU, List.cons_append]
        · rw [hV]
          simp only [protCount]
    | prot l m =>
      rw [renderChunks] at h
      rw [List.append_assoc] at h
      rcases List.append_eq_append_iff.1 h with ⟨U', hU', hr⟩ | ⟨u', hu', hpv⟩
      · have hclean' : ¬ str "PLACEHOLDER" <:+: origChunks r := by
          intro hinf
          apply hclean
          rw [origChunks]
          exact hinf.trans (List.suffix_append m (origChunks r)).isInfix
        have hwf' : chunksWF r := fun l2 m2 hm => hwf l2 m2 (List.mem_cons_of_mem _ hm)
        rw [← List.append_assoc] at hr
        obtain ⟨C1, l2, m2, C2, hsplit, hU2, hV⟩ := ih (n + 1) U' V hclean' hwf' hr
        refine ⟨Chunk.prot l m :: C1, l2, m2, C2, ?_, ?_, ?_⟩
        · rw [hsplit]; rfl
        · rw [hU', hU2, renderChunks, List.append_assoc]
        · rw [hV]
          simp only [protCount]
          rw [show n + (protCount C1 + 1) = n + 1 + protCount C1 from by omega]
      · rcases List.append_eq_append_iff.1 hpv with ⟨e, he, hV⟩ | ⟨e, he, hrend⟩
        · -- the occurrence is the key's own name
          rw [he] at hu'
          have hcount := mkKey_count_P l (hwf l m (List.mem_cons_self _ _)) n
          rw [hu', List.count_append, List.count_append] at hcount
          have hphP : List.count 'P' (str "PLACEHOLDER") = 1 := by decide
          rw [hphP] at hcount
          have hUP : 'P' ∉ U := by
            rw [← List.count_eq_zero]
            omega
          have hx : U ++ ('P' :: (str "LACEHOLDER" ++ e)) =
              str "__" ++ ('P' :: (str "LACEHOLDER" ++
                ('_' :: (l ++ '_' :: (pad4 n ++ '_' :: ('_' :: [])))))) := by
            have h1 : U ++ (str "PLACEHOLDER" ++ e) =
                str "__" ++ str "PLACEHOLDER" ++
                  ('_' :: (l ++ '_' :: (pad4 n ++ '_' :: ('_' :: [])))) := by
              rw [← hu', mkKey_eq_parts]
            rw [ph_head_P] at h1
            rw [List.append_assoc] at h1
            simp only [List.cons_append] at h1
            exact h1
          obtain ⟨hU2, _, hrest⟩ := firstOcc (fun c => c == 'P') U (str "__") 'P' 'P'
            (str "LACEHOLDER" ++ e)
            (str "LACEHOLDER" ++ ('_' :: (l ++ '_' :: (pad4 n ++ '_' :: ('_' :: [])))))
            (fun c hc => beq_eq_false_iff_ne.2 (fun hcp => hUP (hcp ▸ hc)))
            (by decide) (by decide) (by decide) hx
          have he2 : e = '_' :: (l ++ '_' :: (pad4 n ++ '_' :: ('_' :: []))) :=
            List.append_cancel_left hrest
          refine ⟨[], l, m, r, rfl, ?_, ?_⟩
          · rw [hU2]; rfl
          · rw [hV, he2]
            simp [protCount, List.append_assoc]
        · cases u' with
          | nil =>
            exfalso
            rw [List.nil_append] at he
            rw [← he] at hrend
            have hclean' : ¬ str "PLACEHOLDER" <:+: origChunks r := by
              intro hinf
              apply hclean
              rw [origChunks]
              exact hinf.trans (List.suffix_append m (origChunks r)).isInfix
            have hwf' : chunksWF r := fun l2 m2 hm => hwf l2 m2 (List.mem_cons_of_mem _ hm)
            have hr2 : renderChunks r (n + 1) = [] ++ str "PLACEHOLDER" ++ V := by
              rw [List.nil_append]
              exact hrend
            obtain ⟨C1, l2, m2, C2, hsplit, hU2, hV2⟩ := ih (n + 1) [] V hclean' hwf' hr2
            have : ([] : List Char) ≠ renderChunks C1 (n + 1) ++ str "__" := by
              intro hcon
              have := congrArg List.length hcon
              simp [str] at this
            exact this hU2
          | cons u0 u'' =>
            exfalso
            have hsuf : (u0 :: u'') <:+ mkKey l n := ⟨U, hu'.symm⟩
            have hlast : (u0 :: u'').getLast? = some '_' := by
              rw [← mkKey_getLast l n, hu']
              rw [List.getLast?_append_of_ne_nil _ (by simp)]
            have hmem : '_' ∈ (u0 :: u'') := List.mem_of_mem_getLast? hlast
            have : '_' ∈ str "PLACEHOLDER" := by
              rw [he]
              exact List.mem_append.2 (Or.inl hmem)
            exact ph_no_underscore '_' this rfl

theorem restore_cons (sql : List Char) (kv : List Char × List Char)
    (rest : List (List Char × List Char)) :
    restore_placeholders sql (kv :: rest) =
      restore_placeholders (replaceSub kv.1 kv.2 sql) rest := rfl

theorem master {C1 : List Chunk} {l m : List Char} {C2 : List Chunk} (n : Nat)
    (hclean : ¬ str "PLACEHOLDER" <:+: origChunks (C1 ++ Chunk.prot l m :: C2))
    (hwf : chunksWF (C1 ++ Chunk.prot l m :: C2))
    (hl : l ∈ LABELS)
    (hC1 : protCount C1 = 0) :
    replaceSub (mkKey l n) m (renderChunks (C1 ++ Chunk.prot l m :: C2) n) =
      origChunks C1 ++ (m ++ renderChunks C2 (n + 1)) := by
  have hrender : renderChunks (C1 ++ Chunk.prot l m :: C2) n =
      origChunks C1 ++ (mkKey l n ++ renderChunks C2 (n + 1)) := by
    rw [renderChunks_append, hC1, Nat.add_zero, renderChunks_noprot hC1, renderChunks]
  have hskip : ∀ suf, suf <:+ origChunks C1 → suf ≠ [] →
      ¬ (mkKey l n).isPrefixOf (suf ++ (mkKey l n ++ renderChunks C2 (n + 1))) := by
    intro suf hsuf hne hpre
    obtain ⟨E, hE⟩ := List.isPrefixOf_iff_prefix.1 hpre
    have hrender2 : renderChunks (suf.map Chunk.raw ++ Chunk.prot l m :: C2) n =
        suf ++ (mkKey l n ++ renderChunks C2 (n + 1)) := by
      rw [renderChunks_append, protCount_rawmap, Nat.add_zero, renderChunks_rawmap,
        renderChunks]
    have h3 : renderChunks (suf.map Chunk.raw ++ Chunk.prot l m :: C2) n =
        str "__" ++ str "PLACEHOLDER" ++
          (('_' :: (l ++ '_' :: (pad4 n ++ '_' :: ('_' :: [])))) ++ E) := by
      rw [hrender2, ← hE, mkKey_eq_parts, List.append_assoc]
    have hclean2 : ¬ str "PLACEHOLDER" <:+:
        origChunks (suf.map Chunk.raw ++ Chunk.prot l m :: C2) := by
      intro hinf
      apply hclean
      rw [origChunks_append, origChunks_rawmap, origChunks] at hinf
      obtain ⟨t, ht⟩ := hsuf
      have hsuf2 : (suf ++ (m ++ origChunks C2)) <:+
          (t ++ (suf ++ (m ++ origChunks C2))) := ⟨t, rfl⟩
      rw [origChunks_append, origChunks, ← ht, List.append_assoc]
      exact hinf.trans hsuf2.isInfix
    have hwf2 : chunksWF (suf.map Chunk.raw ++ Chunk.prot l m :: C2) :=
      chunksWF_rawmap_append (chunksWF_append_right hwf)
    obtain ⟨D1, l2, m2, D2, hsplit2, hU3, _⟩ := ph_decomp _ n _ _ hclean2 hwf2 h3
    have hD1nil : D1 = [] := by
      have h0 : ([] : List Char) ++ str "__" = renderChunks D1 n ++ str "__" := by
        rw [List.nil_append]
        exact hU3
      have h1 := List.append_cancel_right h0
      exact renderChunks_nil_iff h1.symm
    rw [hD1nil, List.nil_append] at hsplit2
    cases suf with
    | nil => exact hne rfl
    | cons s0 suf' =>
      rw [List.map_cons, List.cons_append] at hsplit2
      cases hsplit2
  have hnoocc : ¬ (mkKey l n <:+: renderChunks C2 (n + 1)) := by
    intro hinf
    obtain ⟨X, Y, hXY⟩ := hinf
    have h4 : renderChunks C2 (n + 1) = (X ++ str "__") ++ str "PLACEHOLDER" ++
        (('_' :: (l ++ '_' :: (pad4 n ++ '_' :: ('_' :: [])))) ++ Y) := by
      rw [← hXY, mkKey_eq_parts]
      simp [List.append_assoc]
    have hclean2 : ¬ str "PLACEHOLDER" <:+: origChunks C2 := by
      intro hinf2
      apply hclean
      rw [origChunks_append, origChunks]
      exact (hinf2.trans (List.suffix_append m (origChunks C2)).isInfix).trans
        (List.suffix_append (origChunks C1) _).isInfix
    have hwf2 : chunksWF C2 := by
      have hwfr := chunksWF_append_right hwf
      exact fun l2 m2 hm => hwfr l2 m2 (List.mem_cons_of_mem _ hm)
    obtain ⟨D1, l2, m2, D2, hsplit2, _, hV4⟩ := ph_decomp _ (n + 1) _ _ hclean2 hwf2 h4
    have hl2 : l2 ∈ LABELS := by
      apply hwf2 l2 m2
      rw [hsplit2]
      exact List.mem_append.2 (Or.inr (List.mem_cons_self _ _))
    have h5 : ('_' :: (l ++ '_' :: (pad4 n ++ '_' :: ('_' :: [])))) ++ Y =
        '_' :: (l ++ '_' :: (pad4 n ++ '_' :: ('_' :: Y))) := by
      simp
    rw [h5] at hV4
    injection hV4 with h6 h7
    obtain ⟨_, hab, _⟩ := keyArg hl hl2 h7
    omega
  rw [hrender, replaceSub_skipA (mkKey_ne_nil l n) _ hskip,
    replaceSub_hit (mkKey_ne_nil l n), replaceSub_noocc hnoocc]

theorem restore_gen :
    ∀ (k : Nat) (cs : List Chunk) (n : Nat), protCount cs = k →
      ¬ (str "PLACEHOLDER" <:+: origChunks cs) → chunksWF cs →
      restore_placeholders (renderChunks cs n) (tableChunks cs n) = origChunks cs := by
  intro k
  induction k with
  | zero =>
    intro cs n hp hclean hwf
    rw [tableChunks_noprot hp, renderChunks_noprot hp]
    rfl
  | succ k ihk =>
    intro cs n hp hclean hwf
    obtain ⟨C1, l, m, C2, rfl, hC1⟩ := firstSplit (show protCount cs ≠ 0 from by omega)
    have hl : l ∈ LABELS := hwf l m (List.mem_append.2 (Or.inr (List.mem_cons_self _ _)))
    rw [tableChunks_append, tableChunks_noprot hC1, hC1, List.nil_append, Nat.add_zero,
      tableChunks, restore_cons]
    have hm := master n hclean hwf hl hC1
    rw [hm]
    have hrender' : renderChunks ((origChunks C1 ++ m).map Chunk.raw ++ C2) (n + 1) =
        origChunks C1 ++ (m ++ renderChunks C2 (n + 1)) := by
      rw [renderChunks_append, protCount_rawmap, Nat.add_zero, renderChunks_rawmap,
        List.append_assoc]
    have htable' : tableChunks C2 (n + 1) =
        tableChunks ((origChunks C1 ++ m).map Chunk.raw ++ C2) (n + 1) := by
      rw [tableChunks_append, tableChunks_rawmap, protCount_rawmap, Nat.add_zero,
        List.nil_append]
    have horig' : origChunks ((origChunks C1 ++ m).map Chunk.raw ++ C2) =
        origChunks (C1 ++ Chunk.prot l m :: C2) := by
      rw [origChunks_append, origChunks_rawmap, origChunks_append, origChunks,
        List.append_assoc]
    have hp' : protCount ((origChunks C1 ++ m).map Chunk.raw ++ C2) = k := by
      rw [protCount_append, protCount_rawmap]
      rw [protCount_append, hC1, protCount] at hp
      omega
    have hclean' : ¬ str "PLACEHOLDER" <:+:
        origChunks ((origChunks C1 ++ m).map Chunk.raw ++ C2) := by
      rw [horig']
      exact hclean
    have hwf' : chunksWF ((origChunks C1 ++ m).map Chunk.raw ++ C2) := by
      apply chunksWF_rawmap_append
      have := chunksWF_append_right hwf
      exact fun l2 m2 hm2 => this l2 m2 (List.mem_cons_of_mem _ hm2)
    rw [← hrender', htable', ihk _ (n + 1) hp' hclean' hwf', horig']

theorem mkKey_inj_counter {l l' : List Char} (hl : l ∈ LABELS) (hl' : l' ∈ LABELS)
    {a b : Nat} (h : mkKey l a = mkKey l' b) : l = l' ∧ a = b := by
  rw [mkKey_eq_parts, mkKey_eq_parts, List.append_assoc, List.append_assoc] at h
  have h2 := List.append_cancel_left h
  have h3 := List.append_cancel_left h2
  injection h3 with h4 h5
  obtain ⟨h6, h7, _⟩ := keyArg hl hl' h5
  exact ⟨h6, h7⟩

theorem tableKeys_shape :
    ∀ (cs : List Chunk) (n : Nat), chunksWF cs →
      ∀ kv ∈ tableChunks cs n, ∃ l c, kv.1 = mkKey l c ∧ n ≤ c ∧ l ∈ LABELS := by
  intro cs
  induction cs with
  | nil => intro n hwf kv hkv; cases hkv
  | cons c r ih =>
    intro n hwf kv hkv
    cases c with
    | raw c0 =>
      rw [tableChunks] at hkv
      exact ih n (fun l2 m2 hm => hwf l2 m2 (List.mem_cons_of_mem _ hm)) kv hkv
    | prot l m =>
      rw [tableChunks] at hkv
      rcases List.mem_cons.1 hkv with rfl | hkv2
      · exact ⟨l, n, rfl, le_rfl, hwf l m (List.mem_cons_self _ _)⟩
      · obtain ⟨l2, c2, hkey, hle, hl2⟩ :=
          ih (n + 1) (fun l3 m3 hm => hwf l3 m3 (List.mem_cons_of_mem _ hm)) kv hkv2
        exact ⟨l2, c2, hkey, by omega, hl2⟩

theorem table_keys_distinct :
    ∀ (cs : List Chunk) (n : Nat), chunksWF cs →
      List.Pairwise (· ≠ ·) ((tableChunks cs n).map Prod.fst) := by
  intro cs
  induction cs with
  | nil => intro n hwf; exact List.Pairwise.nil
  | cons c r ih =>
    intro n hwf
    cases c with
    | raw c0 =>
      rw [tableChunks]
      exact ih n (fun l2 m2 hm => hwf l2 m2 (List.mem_cons_of_mem _ hm))
    | prot l m =>
      rw [tableChunks, List.map_cons]
      have hwf' : chunksWF r := fun l2 m2 hm => hwf l2 m2 (List.mem_cons_of_mem _ hm)
      refine List.Pairwise.cons ?_ (ih (n + 1) hwf')
      intro k hk heq
      obtain ⟨kv, hkv, hfst⟩ := List.mem_map.1 hk
      obtain ⟨l2, c2, hkey, hle, hl2⟩ := tableKeys_shape r (n + 1) hwf' kv hkv
      rw [← hfst, hkey] at heq
      have := mkKey_inj_counter (hwf l m (List.mem_cons_self _ _)) hl2 heq
      omega

theorem restore_id :
    ∀ (repl : List (List Char × List Char)) (s : List Char),
      (∀ kv ∈ repl, ¬ (kv.1 <:+: s)) → restore_placeholders s repl = s := by
  intro repl
  induction repl with
  | nil => intro s h; rfl
  | cons kv rest ih =>
    intro s h
    rw [restore_cons, replaceSub_noocc (h kv (List.mem_cons_self _ _))]
    exact ih s (fun kv2 hk => h kv2 (List.mem_cons_of_mem _ hk))

theorem ph_infix_mkKey (l : List Char) (n : Nat) : str "PLACEHOLDER" <:+: mkKey l n := by
  rw [mkKey_eq_parts]
  exact ⟨str "__", '_' :: (l ++ '_' :: (pad4 n ++ '_' :: ('_' :: []))), rfl⟩

theorem hasSub_false_no_infix {pat : List Char} :
    ∀ {s : List Char}, hasSub pat s = false → ¬ (pat <:+: s) := by
  have key : ∀ (s : List Char), pat <:+: s → hasSub pat s = true := by
    intro s
    induction s with
    | nil =>
      intro h
      have : pat = [] := List.eq_nil_of_infix_nil h
      rw [this]
      rfl
    | cons c r ih =>
      intro h
      rcases List.infix_cons_iff.1 h with h | h
      · rw [hasSub, List.isPrefixOf_iff_prefix.2 h]
        rfl
      · rw [hasSub, ih h, Bool.or_true]
  intro s hfalse hinf
  rw [key s hinf] at hfalse
  cases hfalse

theorem matchProt_label {s lbl m rest : List Char}
    (h : matchProt s = some (lbl, m, rest)) : lbl ∈ LABELS := by
  unfold matchProt at h
  split at h
  · simp only [Option.some.injEq, Prod.mk.injEq] at h
    rw [← h.1]
    decide
  · simp only [Option.map_eq_some'] at h
    obtain ⟨p, _, hp⟩ := h
    simp only [Prod.mk.injEq] at hp
    rw [← hp.1]
    decide
  · simp only [Option.map_eq_some'] at h
    obtain ⟨p, _, hp⟩ := h
    simp only [Prod.mk.injEq] at hp
    rw [← hp.1]
    decide
  · split at h
    · split at h
      · simp only [Option.some.injEq, Prod.mk.injEq] at h
        rw [← h.1]
        decide
      · split at h
        · simp only [Option.some.injEq, Prod.mk.injEq] at h
          rw [← h.1]
          decide
        · cases h
    · simp only [Option.map_eq_some'] at h
      obtain ⟨p, _, hp⟩ := h
      simp only [Prod.mk.injEq] at hp
      rw [← hp.1]
      decide
  · simp only [Option.map_eq_some'] at h
    obtain ⟨p, _, hp⟩ := h
    simp only [Prod.mk.injEq] at hp
    rw [← hp.1]
    decide
  · simp only [Option.map_eq_some'] at h
    obtain ⟨p, _, hp⟩ := h
    simp only [Prod.mk.injEq] at hp
    rw [← hp.1]
    decide
  · simp only [Option.map_eq_some'] at h
    obtain ⟨p, _, hp⟩ := h
    simp only [Prod.mk.injEq] at hp
    rw [← hp.1]
    decide
  · cases h

theorem chunksWF_chunksOfF : ∀ (fuel : Nat) (s : List Char), chunksWF (chunksOfF fuel s) := by
  intro fuel
  induction fuel with
  | zero =>
    intro s l m hm
    rw [chunksOfF] at hm
    obtain ⟨c, _, hc⟩ := List.mem_map.1 hm
    cases hc
  | succ fuel ih =>
    intro s
    cases s with
    | nil =>
      intro l m hm
      rw [chunksOfF] at hm
      cases hm
    | cons c r =>
      intro l m hm
      rw [chunksOfF.eq_def] at hm
      dsimp only at hm
      cases hmp : matchProt (c :: r) with
      | none =>
        rw [hmp] at hm
        rcases List.mem_cons.1 hm with h | h
        · cases h
        · exact ih r l m h
      | some p =>
        obtain ⟨p1, p2, p3⟩ := p
        rw [hmp] at hm
        rcases List.mem_cons.1 hm with h | h
        · injection h with h1 h2
          rw [h1]
          exact matchProt_label hmp
        · exact ih p3 l m h

theorem chunksWF_chunksOf (s : List Char) : chunksWF (chunksOf s) :=
  chunksWF_chunksOfF (s.length + 1) s

/-! ## Claim theorems -/

/-- C1: the claim states that for every input text the
whitespace-insensitive, case-insensitive token sequence of the
pipeline's output equals that of the input.  The code violates it: on
the input `a\ssb` the `r"\\s+"` regex of `flatten_sql_whitespace` (a
typo for whitespace flattening) deletes the literal backslash-`ss`
characters, so the output is `a b` and the token streams differ. -/
theorem c1_content_preservation_fails :
    format_pipeline (str "a\\ssb") = str "a b" ∧
    tokenStreamCI (format_pipeline (str "a\\ssb")) ≠ tokenStreamCI (str "a\\ssb") := by
  constructor
  · decide
  · decide

/-- C2: the claim states the formatting pipeline returns without raising
on every input, force-closing open frames.  The code violates it: on a
text whose lines are `(` and `)`, `reindent_sql` pops the lone `PAREN`
frame and then evaluates `clause_stack[-1]` on the now-empty stack,
raising `IndexError` (modelled as `none`). -/
theorem c2_reindent_sql_raises_on_bare_paren_lines :
    reindent_sql (str "(\n)") = none := by decide

/-- C3: the claim states `format (format T) = format T` for every text.
The code violates it at `T = "SELECT COALESCE --c\n(a, b) FROM t"`
(valid SQL: a line comment between the function name and its argument
list): the first pass leaves `(` on the restored comment's line, so the
second pass protects `--c (` as a single comment, the parenthesis
disappears from the structural scan, and the indentation differs. -/
theorem c3_idempotence_fails :
    format_pipeline (format_pipeline (str "SELECT COALESCE --c\n(a, b) FROM t"))
      ≠ format_pipeline (str "SELECT COALESCE --c\n(a, b) FROM t") := by decide

/-- C9: the claim states that two inputs differing only in a leading
pass-1 marker line produce outputs differing only in that line.  The
code violates it: with remainder `x, y`, the marker-bearing input ends
with `x` absorbed into the marker comment's output line, so the outputs
differ beyond the marker line (and the remainder is formatted
differently: its `x` line disappears). -/
theorem c9_marker_not_noninterfering :
    format_pipeline (str "x, y") = str "x\n, y" ∧
    format_pipeline (str "-- sqlfluff-pass1-version: 1\nx, y")
      = str "\n-- sqlfluff-pass1-version: 1 x\n, y" ∧
    dropPass1MarkerLines (format_pipeline (str "-- sqlfluff-pass1-version: 1\nx, y"))
      ≠ dropPass1MarkerLines (format_pipeline (str "x, y")) := by
  refine ⟨by decide, by decide, by decide⟩

/-- C4, counterexample: as stated ("for every input text"), the
round-trip claim is false: when the input itself contains a
placeholder-shaped token, restoration rewrites that original text too
(`__PLACEHOLDER_SQL_COMMENT_0001__ --x` comes back as `--x --x`). -/
theorem c4_roundtrip_counterexample :
    restore_placeholders
        (extract_placeholders (str "__PLACEHOLDER_SQL_COMMENT_0001__ --x")).1
        (extract_placeholders (str "__PLACEHOLDER_SQL_COMMENT_0001__ --x")).2
      = str "--x --x" ∧
    restore_placeholders
        (extract_placeholders (str "__PLACEHOLDER_SQL_COMMENT_0001__ --x")).1
        (extract_placeholders (str "__PLACEHOLDER_SQL_COMMENT_0001__ --x")).2
      ≠ str "__PLACEHOLDER_SQL_COMMENT_0001__ --x" := by
  refine ⟨by decide, by decide⟩

/-- C6, counterexample: the claim's "at arbitrary nesting depth" fails:
with twelve nested `CASE` lines the recursion cap `max_depth = 10` of
`process_case_block` skips the deepest block, so the final `WHEN` line
is emitted at indent 21 although its enclosing `CASE` line (line 11)
sits at indent 22 — not one level below it (which would be 23). -/
theorem c6_nesting_depth_counterexample :
    deepCaseIndents.getD 12 0 = 21 ∧ deepCaseIndents.getD 11 0 = 22 ∧
    deepCaseIndents.getD 12 0 ≠ deepCaseIndents.getD 11 0 + 1 := by
  refine ⟨by decide, by decide, by decide⟩

/-- C7, counterexample: the claim says `UNION` (like the other
non-clause keywords) receives exactly one newline, but `UNION` is a
member of `MAJOR_CLAUSES`, so `format_sql_keywords` inserts a blank
line (two newlines) before it. -/
theorem c7_union_counterexample :
    format_sql_keywords (str "a union b") = str "a \n\nUNION b" ∧
    format_sql_keywords (str "a union b") ≠ str "a \nUNION b" := by
  refine ⟨by decide, by decide⟩

/-- C8: `is_function_call` decides membership by the longest dotted
identifier immediately preceding the parenthesis: it strips trailing
whitespace from `sql[:idx]`, takes the longest suffix that is a dotted
identifier, uppercases the last dot-separated segment and tests
membership in `SNOWFLAKE_FUNCTIONS`; with no such identifier it returns
`false`. -/
theorem c8_function_call_matches_spec :
    ∀ (sql : List Char) (idx : Nat),
      is_function_call sql idx = is_function_call_spec sql idx := by
  intro sql idx
  unfold is_function_call is_function_call_spec
  rw [reSearch_eq_longestSuffix]

/-- C10: an unmatched `)` does not fail: the token loop of
`format_parentheses` treats `)` on an empty context stack exactly as the
structural group context treats it, emitting a newline before the
parenthesis (never a function-call close), and the scan of
`find_sql_blocks` ignores it, leaving the stack and the recorded blocks
unchanged so every other parenthesis is classified as before. -/
theorem c10_unmatched_close_paren_safe :
    (∀ rest before out, fpGo (str ")" :: rest) before [] out =
        fpGo rest (str ")" :: before) [] (out ++ str "\n)")) ∧
    (∀ rest before stck out, fpGo (str ")" :: rest) before (PCtx.grp :: stck) out =
        fpGo rest (str ")" :: before) stck (out ++ str "\n)")) ∧
    (∀ sql r i acc, fsbGo sql (')' :: r) i [] acc = fsbGo sql r (i + 1) [] acc) := by
  refine ⟨fun rest before out => ?_, fun rest before stck out => ?_,
    fun sql r i acc => ?_⟩
  · rfl
  · rfl
  · rfl

/-- C7 (amended): a keyword occurrence not at a line start gets a blank
line (two newlines) exactly when it belongs to `MAJOR_CLAUSES` (which
includes UNION, EXCEPT, INTERSECT, LIMIT and UPDATE, but not OUTER JOIN,
OVER or VALUES), a single newline otherwise, and is uppercased; an
occurrence at a line start gets no newline but is still uppercased. -/
theorem c7_amended_keyword_newlines :
    ∀ kw, kw ∈ KEYWORDS →
      format_sql_keywords (str "a " ++ lowStr kw) =
        str "a " ++ (if MAJOR_CLAUSES.contains kw then str "\n\n" else str "\n") ++ kw ∧
      format_sql_keywords (str "a\n" ++ lowStr kw) = str "a\n" ++ kw := by
  decide

/-- Witness for the amended C7 theorem at the keyword `UNION`. -/
theorem c7_amended_keyword_newlines_witness :
    str "UNION" ∈ KEYWORDS ∧
      (format_sql_keywords (str "a " ++ lowStr (str "UNION")) =
        str "a " ++
          (if MAJOR_CLAUSES.contains (str "UNION") then str "\n\n" else str "\n") ++
          str "UNION" ∧
        format_sql_keywords (str "a\n" ++ lowStr (str "UNION")) =
          str "a\n" ++ str "UNION") :=
  ⟨by decide, c7_amended_keyword_newlines (str "UNION") (by decide)⟩

/-- C6 (amended): within the recursion cap `max_depth = 10`, every rule
of the amended claim holds at every nesting depth: each nested `CASE`
line sits two levels below its enclosing `CASE` (content rule), and in
the innermost block the `WHEN` line is set one level below its `CASE`,
the `THEN` and `ELSE` lines two levels below, a content line two levels
below as a maximum with its existing indent (an existing indent of 30 is
kept), the `END` line one level below, and the `END` closes the frame:
the line after it is indented by the enclosing block's rules. -/
theorem c6_amended_case_rules_family :
    ∀ m, m < 10 →
      (process_case_block
          (List.replicate (m + 2) (str "CASE") ++
            [str "WHEN x", str "THEN y", str "ELSE z", str "foo", str "bar", str "END",
             str "tail"])
          (List.replicate (m + 2) 0 ++ [0, 0, 0, 30, 0, 0, 0]) 0 0 ((m + 11) * 16)).1 =
        (List.range (m + 2)).map (fun k => 2 * k) ++
          [2 * m + 3, 2 * m + 4, 2 * m + 4, 30, 2 * m + 4, 2 * m + 3, 2 * m + 2] := by
  decide

/-- Witness for the amended C6 theorem at the deepest nesting the cap
allows (`m = 9`, eleven nested `CASE` lines). -/
theorem c6_amended_case_rules_family_witness :
    9 < 10 ∧
      (process_case_block
          (List.replicate (9 + 2) (str "CASE") ++
            [str "WHEN x", str "THEN y", str "ELSE z", str "foo", str "bar", str "END",
             str "tail"])
          (List.replicate (9 + 2) 0 ++ [0, 0, 0, 30, 0, 0, 0]) 0 0 ((9 + 11) * 16)).1 =
        (List.range (9 + 2)).map (fun k => 2 * k) ++
          [2 * 9 + 3, 2 * 9 + 4, 2 * 9 + 4, 30, 2 * 9 + 4, 2 * 9 + 3, 2 * 9 + 2] :=
  ⟨by decide, c6_amended_case_rules_family 9 (by decide)⟩

/-- C5: the output of `format_sql_commas` places every comma that lies
inside a function-call parenthesis span (an open parenthesis classified
as a function call together with its matching close) inline as `", "`,
and turns every comma outside all such spans into a newline followed by
`", "`; equivalently, the stack-based block scan of the source computes
exactly the spans of the recursive-matching description. -/
theorem c5_comma_placement :
    ∀ sql : List Char, format_sql_commas sql = format_sql_commas_spec sql := by
  intro sql
  unfold format_sql_commas format_sql_commas_spec
  exact commaGo_congr _ _ (in_block_eq_spec sql) _ _ _

/-- C4 (amended): for every input containing no occurrence of the
substring `PLACEHOLDER`, restoring immediately after extraction returns
the original text unchanged, the generated placeholder keys are pairwise
distinct, and restoration is idempotent (a second application of
`restore_placeholders` with the same table changes nothing). -/
theorem c4_amended_roundtrip_clean :
    ∀ text : List Char, hasSub (str "PLACEHOLDER") text = false →
      restore_placeholders (extract_placeholders text).1 (extract_placeholders text).2
          = text ∧
      List.Pairwise (· ≠ ·) ((extract_placeholders text).2.map Prod.fst) ∧
      restore_placeholders
          (restore_placeholders (extract_placeholders text).1
            (extract_placeholders text).2)
          (extract_placeholders text).2 =
        restore_placeholders (extract_placeholders text).1
          (extract_placeholders text).2 := by
  intro text hclean0
  have hclean : ¬ (str "PLACEHOLDER" <:+: text) := hasSub_false_no_infix hclean0
  have hcleanc : ¬ (str "PLACEHOLDER" <:+: origChunks (chunksOf text)) := by
    rw [chunksOf_orig]
    exact hclean
  have hwf := chunksWF_chunksOf text
  have hmain : restore_placeholders (extract_placeholders text).1
      (extract_placeholders text).2 = text := by
    show restore_placeholders (renderChunks (chunksOf text) 1)
      (tableChunks (chunksOf text) 1) = text
    rw [restore_gen (protCount (chunksOf text)) (chunksOf text) 1 rfl hcleanc hwf,
      chunksOf_orig]
  refine ⟨hmain, ?_, ?_⟩
  · exact table_keys_distinct (chunksOf text) 1 hwf
  · rw [hmain]
    apply restore_id
    intro kv hkv hinf
    obtain ⟨l, c, hkey, _, _⟩ := tableKeys_shape (chunksOf text) 1 hwf kv hkv
    rw [hkey] at hinf
    exact hclean ((ph_infix_mkKey l c).trans hinf)

/-- Witness for the amended C4 theorem on a concrete clean input with a
quoted string and a comment. -/
theorem c4_amended_roundtrip_clean_witness :
    hasSub (str "PLACEHOLDER") (str "a 'b''x' --c") = false ∧
      (restore_placeholders (extract_placeholders (str "a 'b''x' --c")).1
          (extract_placeholders (str "a 'b''x' --c")).2 = str "a 'b''x' --c" ∧
        List.Pairwise (· ≠ ·)
          ((extract_placeholders (str "a 'b''x' --c")).2.map Prod.fst) ∧
        restore_placeholders
            (restore_placeholders (extract_placeholders (str "a 'b''x' --c")).1
              (extract_placeholders (str "a 'b''x' --c")).2)
            (extract_placeholders (str "a 'b''x' --c")).2 =
          restore_placeholders (extract_placeholders (str "a 'b''x' --c")).1
            (extract_placeholders (str "a 'b''x' --c")).2) :=
  ⟨by decide, c4_amended_roundtrip_clean (str "a 'b''x' --c") (by decide)⟩

end SqlFmt
